import Mathlib

/-!
Verification development for the transcript_converter repository.

The development shallowly embeds the core token-to-segment pipeline of
`proc_asr.py` (and, for the extractor comparison, `proc_ww.py`):

* a token row is `(start_ms, end_ms, text, sentence_label)`, modelled by `Tok`
  with Python strings rendered as `List Char` and a possibly absent label as
  `Option (List Char)`;
* `sanitize_toks_arr` truncates long token texts and fills in missing labels;
* `split_long_segs` re-labels tokens of over-long sentences; the Python
  function is recursive and does not terminate on some inputs, so it is
  embedded with an explicit fuel parameter, fuel exhaustion being reported as
  the distinguished outcome `SplitErr.fuel` (the Python recursion that never
  returns corresponds to `SplitErr.fuel` for every amount of fuel);
* `make_sts_arr` merges adjacent equally-labelled tokens into segments; the
  Python code indexes `toks_arr[0]`, so the empty table is an `IndexError`,
  modelled by an `Option` result;
* `break_long_line` inserts line breaks into one segment's text.

Machine integers do not overflow here (Python ints), so times and character
budgets are plain `Int`.
-/

/-- Characters of `NO_SPACE_BEFORE` in `proc_asr.py`: a token whose text
starts with one of these is appended without a preceding space. -/
def nsb (c : Char) : Bool :=
  c = '.' || c = ',' || c = '-' || c = '/'

/-- One row of the token table produced by `make_toks_arr`:
columns are start time (ms), end time (ms), token text, sentence id. -/
structure Tok where
  start : Int
  stop : Int
  text : List Char
  label : Option (List Char)
deriving DecidableEq, Repr

/-- One row of the sentence/segment table produced by `make_sts_arr`:
start time, end time, segment text. -/
structure Seg where
  start : Int
  stop : Int
  text : List Char
deriving DecidableEq, Repr

/-- Python slice `w[:m]` for an integer `m` that may be negative:
a negative `m` counts from the end of the list. -/
def pyTake (m : Int) (w : List Char) : List Char :=
  if 0 ≤ m then w.take m.toNat else w.take ((w.length : Int) + m).toNat

/-- Accumulation step shared by the sentence-length computations in
`split_long_segs`: append a space first unless the string so far is empty or
the token starts with a no-space-before character
(`if len(st) > 0 and t[2][0] not in NO_SPACE_BEFORE: st += " "` then
`st += t[2]`).  A token with empty text raises `IndexError` in Python at
`t[2][0]`; the `headD` default is never consulted in the theorems below,
which all assume non-empty token texts as the data model requires. -/
def concatStep (st : List Char) (t : Tok) : List Char :=
  if st.length > 0 && !(nsb (t.text.headD ' ')) then st ++ ' ' :: t.text
  else st ++ t.text

/-- Text of a whole sentence, as computed by the
`for t in sttoks_arr: ... st += t[2]` loops of `split_long_segs`. -/
def concatSt (l : List Tok) : List Char :=
  l.foldl concatStep []

/-- Character length of a sentence built from the given tokens. -/
def cLen (l : List Tok) : Nat :=
  (concatSt l).length

/-- Stand-in sentence id `DEFAULT_SENTENCE_ID = "no_sentence"` used by
`sanitize_toks_arr`. -/
def noSentence : List Char := "no_sentence".toList

/-- Embedding of `sanitize_toks_arr`: truncate texts longer than
`max_chars - 3` and replace falsy (`None`, empty) or non-string labels by
`"no_sentence"`.  In the embedding a non-string or `None` label is `none` and
an empty-string label is `some []`; both are falsy or non-string in Python. -/
def sanitize_toks_arr (toks : List Tok) (max_chars : Int) : List Tok :=
  toks.map (fun t =>
    let text' := if (t.text.length : Int) > max_chars - 3
                 then pyTake (max_chars - 3) t.text else t.text
    let label' := match t.label with
                  | none => some noSentence
                  | some s => if s = [] then some noSentence else some s
    { t with text := text', label := label' })

/-- Outcomes of `split_long_segs` other than a normal return:
`maxChars` is the `assert max_chars >= 10` failure, `label` is the
`assert isinstance(t[3], str)` failure, and `fuel` marks a recursion that
exceeds the modelled recursion depth (Python's `RecursionError`). -/
inductive SplitErr where
  | maxChars
  | label
  | fuel
deriving DecidableEq, Repr

/-- Accumulating loop for `buildStIds`; the accumulator holds the ids seen so
far in reverse order. -/
def buildStIdsGo (acc : List (List Char)) : List Tok → Except SplitErr (List (List Char))
  | [] => .ok acc.reverse
  | t :: rest =>
    match t.label with
    | none => .error .label
    | some s => buildStIdsGo (if s ∈ acc then acc else s :: acc) rest

/-- Ordered list of distinct sentence ids in first-appearance order, with the
per-token assertion `assert isinstance(t[3], str)` of `split_long_segs`. -/
def buildStIds (toks : List Tok) : Except SplitErr (List (List Char)) :=
  buildStIdsGo [] toks

/-- The list `["Mr.", "Mrs.", "Ms.", "Dr.", "Sr.", "Sra.", "Srta."]` of
abbreviations that must not become split points. -/
def commonAbbrevs : List (List Char) :=
  ["Mr.", "Mrs.", "Ms.", "Dr.", "Sr.", "Sra.", "Srta."].map String.toList

/-- The token ends in one of `splitting_punc = ['.', ',']`.  Python reads
`t[2][-1]`; the default is never consulted for non-empty texts. -/
def puncEnd (t : Tok) : Bool :=
  t.text.getLastD ' ' = '.' || t.text.getLastD ' ' = ','

/-- Scan loop of `split_long_segs` that finds `lasti`, the index of the last
token keeping the sentence within `max_chars`, subject to not leaving fewer
than `min_toks_dangled` tokens dangling and not cutting right before a
no-space-before token.  `sub` is the whole sentence array (for the
`sttoks_arr[i+1]` look-ahead), the fourth argument is the tokens still to be
scanned, then the running index, running string, and current `lasti`. -/
def scanGo (sub : List Tok) (max_chars : Int) (d : Nat) :
    List Tok → Nat → List Char → Nat → Nat
  | [], _, _, lasti => lasti
  | t :: rest, i, st, lasti =>
    let st' := concatStep st t
    let adv := decide ((st'.length : Int) ≤ max_chars) &&
      decide (i + d < sub.length) &&
      (match sub.get? (i + 1) with
       | some u => !(nsb (u.text.headD ' '))
       | none => false)
    scanGo sub max_chars d rest (i + 1) st' (if adv then i else lasti)

/-- Initial call of the scan loop: `lasti = 0`, `st = ""`. -/
def scanLasti (sub : List Tok) (max_chars : Int) (d : Nat) : Nat :=
  scanGo sub max_chars d sub 0 [] 0

/-- Backtracking loop body: try `backup = 1, …, max_toks_backtrack - 1` in
order and move `lasti` back to the first token ending in splitting
punctuation that is not a common abbreviation. -/
def btGo (sub : List Tok) (lasti : Nat) : List Nat → Nat
  | [] => lasti
  | k :: ks =>
    if k ≤ lasti then
      match sub.get? (lasti - k) with
      | some u =>
          if puncEnd u && !(decide (u.text ∈ commonAbbrevs)) then lasti - k
          else btGo sub lasti ks
      | none => btGo sub lasti ks
    else btGo sub lasti ks

/-- Backtrack step of `split_long_segs`: if the token at `lasti` does not end
in splitting punctuation, look back up to `max_toks_backtrack - 1` tokens
(`range(1, max_toks_backtrack)`) for a better split point. -/
def backtrackStep (sub : List Tok) (lasti : Nat) (b : Nat) : Nat :=
  match sub.get? lasti with
  | some t => if puncEnd t then lasti else btGo sub lasti (List.range' 1 (b - 1))
  | none => lasti

/-- The fixed suffix `"_x"` appended to a sentence id when a sentence is
split. -/
def xSuf : List Char := ['_', 'x']

/-- Relabelling of one token, `t[3] = t[3]+"_x"`. -/
def xmap (t : Tok) : Tok :=
  { t with label := t.label.map (· ++ xSuf) }

/-- Re-labelling `for t in sttoks_arr[(lasti+1):]: t[3] = t[3]+"_x"`. -/
def relabelAfter (sub : List Tok) (lasti : Nat) : List Tok :=
  sub.take (lasti + 1) ++ (sub.drop (lasti + 1)).map xmap

/-- Write-back `for i, t in enumerate(sttoks_arr): t[3] = sttoks_arr_split[i][3]`:
the rows of `sttoks_arr` are references into `toks_arr`, so the `j`-th token
of `toks` carrying label `id` receives the label of the `j`-th row of the
recursion's result. -/
def writeLabels (id : List Char) : List Tok → List Tok → List Tok
  | [], _ => []
  | t :: ts, news =>
    if t.label = some id then
      match news with
      | [] => t :: writeLabels id ts []
      | n :: ns => { t with label := n.label } :: writeLabels id ts ns
    else t :: writeLabels id ts news

/-- The `for st_id in st_ids:` loop of `split_long_segs`, parameterised by
the recursive call `rec` (the nested invocation of `split_long_segs` with one
unit of fuel less).  Each iteration gathers the tokens currently labelled
`id`, and if their sentence exceeds `max_chars`, relabels the tail, recurses
on the gathered sub-array, and writes the resulting labels back into the
table. -/
def processIds (rec : List Tok → Except SplitErr (List Tok)) :
    List (List Char) → List Tok → Int → Nat → Nat → Except SplitErr (List Tok)
  | [], toks, _, _, _ => .ok toks
  | id :: rest, toks, max_chars, b, d =>
    let sub := toks.filter (fun t => t.label = some id)
    if max_chars < (cLen sub : Int) then
      let l1 := scanLasti sub max_chars d
      let l2 := backtrackStep sub l1 b
      let sub' := relabelAfter sub l2
      do
        let subSplit ← rec sub'
        processIds rec rest (writeLabels id toks subSplit) max_chars b d
    else processIds rec rest toks max_chars b d

/-- Embedding of `split_long_segs(toks_arr_in, max_chars, max_toks_backtrack,
min_toks_dangled)`.  The deep copies of the Python code are value copies
here.  The extra `fuel` argument bounds the recursion depth: each nested
Python invocation consumes one unit, and running out of fuel models a
recursion that never returns (`SplitErr.fuel`). -/
def split_long_segs : Nat → List Tok → Int → Nat → Nat → Except SplitErr (List Tok)
  | 0, _, _, _, _ => .error .fuel
  | fuel + 1, toks, max_chars, b, d =>
    if max_chars < 1 then .ok toks
    else if max_chars < 10 then .error .maxChars
    else do
      let ids ← buildStIds toks
      processIds (fun ts => split_long_segs fuel ts max_chars b d)
        ids toks max_chars b d

/-- Sentence-extension step of `make_sts_arr`: unlike `concatStep` it does not
test `len(st) > 0`, because the loop seeds `st` with the first token's text
(`if t[2][0] in NO_SPACE_BEFORE: st += t[2] else: st += " " + t[2]`). -/
def sepStep (st : List Char) (t : Tok) : List Char :=
  if nsb (t.text.headD ' ') then st ++ t.text else st ++ ' ' :: t.text

/-- Main loop of `make_sts_arr` over `toks_arr[1:]`, carrying the current
sentence's start, end, string, and id. -/
def mkSts : List Tok → Int → Int → List Char → Option (List Char) → List Seg
  | [], s, e, st, _ => [⟨s, e, st⟩]
  | t :: ts, s, e, st, id =>
    if t.label = id then mkSts ts s t.stop (sepStep st t) id
    else ⟨s, e, st⟩ :: mkSts ts t.start t.stop t.text t.label

/-- Embedding of `make_sts_arr`: combine adjacent tokens with equal sentence
ids into segments.  The Python function begins with `start = toks_arr[0][0]`,
so an empty table raises `IndexError`, modelled by `none`. -/
def make_sts_arr : List Tok → Option (List Seg)
  | [] => none
  | t :: ts => some (mkSts ts t.start t.stop t.text t.label)

/-- Decomposition of a token table into its maximal runs of adjacent tokens
with equal labels; `runsAux c cs ts` carries the current run `c :: cs`. -/
def runsAux (c : Tok) (cs : List Tok) : List Tok → List (List Tok)
  | [] => [c :: cs]
  | t :: ts =>
    if t.label = c.label then runsAux c (cs ++ [t]) ts
    else (c :: cs) :: runsAux t [] ts

/-- Maximal runs of adjacent equally-labelled tokens, in table order; these
are exactly the token groups that `make_sts_arr` merges into segments. -/
def runsOf : List Tok → List (List Tok)
  | [] => []
  | t :: ts => runsAux t [] ts

/-- Placeholder token used only as an unreachable default. -/
def dTok : Tok := ⟨0, 0, [], none⟩

/-- Text of a segment built from a run: the first token's text extended by
`sepStep` for each further token. -/
def segText : List Tok → List Char
  | [] => []
  | t :: ts => ts.foldl sepStep t.text

/-- Segment corresponding to a run: start of its first token, end of its
last token, concatenated text. -/
def segOfRun (r : List Tok) : Seg :=
  ⟨(r.headD dTok).start, (r.getLastD dTok).stop, segText r⟩

/-! Embedding of `break_long_line`.  The Python function works on one string;
here a string is a `List Char`.  `split(" ")`, `" ".join`, and
`replace("\n ", "\n")` are modelled character by character. -/

/-- Python `segment.split(" ")`: split at every space, keeping empty pieces. -/
def splitSp : List Char → List (List Char)
  | [] => [[]]
  | c :: cs =>
    let r := splitSp cs
    if c = ' ' then [] :: r
    else (c :: r.headD []) :: r.tail

/-- Python `"\n".split`-style decomposition of the output into lines. -/
def splitNl : List Char → List (List Char)
  | [] => [[]]
  | c :: cs =>
    let r := splitNl cs
    if c = '\n' then [] :: r
    else (c :: r.headD []) :: r.tail

/-- Python `" ".join(wordl)`. -/
def joinSp (l : List (List Char)) : List Char :=
  match l with
  | [] => []
  | w :: ws => w ++ (ws.map (fun u => ' ' :: u)).join

/-- Python `split_seg.replace("\n ", "\n")`: left-to-right, non-overlapping,
continuing after each replacement. -/
def replNlSp : List Char → List Char
  | [] => []
  | '\n' :: ' ' :: rest => '\n' :: replNlSp rest
  | c :: rest => c :: replNlSp rest

/-- Truncation pass of `break_long_line`:
`if len(w) > max_line_chars: wordl[i] = w[:max_line_chars]`. -/
def truncWords (wl : List (List Char)) (max_line_chars : Int) : List (List Char) :=
  wl.map (fun w =>
    if (w.length : Int) > max_line_chars then pyTake max_line_chars w else w)

/-- Main loop of `break_long_line` over word indices, run on a fuel of
`wl.length - i` so that the recursion is structural: the Python loop performs
exactly one iteration per index from `i` to `wl.length - 1` (`wordl` never
changes length, only its cells are mutated), so the fuel never runs out
before the index does.  At index `i`, if a space plus the word would overflow
the line, a `'\n'` is appended to word `i - 1` — which for `i = 0` is
Python's `wordl[-1]`, the last word — and the line length restarts from the
(possibly just mutated) word `i`. -/
def wrapGo (max_line_chars : Int) : Nat → Nat → Int → List (List Char) → List (List Char)
  | 0, _, _, wl => wl
  | fuel + 1, i, llen, wl =>
    match wl.get? i with
    | none => wl
    | some w =>
      if llen + 1 + (w.length : Int) > max_line_chars then
        let j := if i = 0 then wl.length - 1 else i - 1
        let wl' := wl.set j ((wl.get? j).getD [] ++ ['\n'])
        wrapGo max_line_chars fuel (i + 1) (((wl'.get? i).getD []).length : Int) wl'
      else
        wrapGo max_line_chars fuel (i + 1) (llen + 1 + (w.length : Int)) wl

/-- Embedding of `break_long_line`: split into words, truncate over-long
words, insert line breaks, re-join with spaces, drop spaces after breaks. -/
def break_long_line (segment : List Char) (max_line_chars : Int) : List Char :=
  let wordl := truncWords (splitSp segment) max_line_chars
  replNlSp (joinSp (wrapGo max_line_chars wordl.length 0 0 wordl))

/-! Embedding of the two annotation extractors named `make_toks_arr`: the
dictionary-based one of `proc_asr.py` and the pandas-join one of
`proc_ww.py`.  An annotation view is the quadruple of annotation lists the
extractors query. -/

/-- Token annotation: `id` and `word` properties. -/
structure TokenAnn where
  id : List Char
  word : List Char
deriving DecidableEq, Repr

/-- TimeFrame annotation: `id`, `frameType`, `start`, `end` properties. -/
structure TFAnn where
  id : List Char
  frameType : List Char
  start : Int
  stop : Int
deriving DecidableEq, Repr

/-- Alignment annotation: `source` (a time frame id) and `target` (a token
id). -/
structure AlignAnn where
  source : List Char
  target : List Char
deriving DecidableEq, Repr

/-- Sentence annotation: `id` and the list of `targets` (token ids). -/
structure SentAnn where
  id : List Char
  targets : List (List Char)
deriving DecidableEq, Repr

/-- One annotation view, holding the four annotation lists in document
order. -/
structure AsrView where
  toanns : List TokenAnn
  tfanns : List TFAnn
  alanns : List AlignAnn
  stanns : List SentAnn
deriving DecidableEq, Repr

/-- Value stored in the `tos` dictionary of `proc_asr.make_toks_arr`:
the token's word, its time span once aligned, its sentence id once
grouped. -/
structure TokInfo where
  word : List Char
  tspan : Option (Int × Int)
  sid : Option (List Char)
deriving DecidableEq, Repr

/-- Python dict assignment `d[k] = v`: overwrite in place if the key exists,
otherwise append (insertion order is preserved). -/
def dictSet (k : List Char) (v : α) : List (List Char × α) → List (List Char × α)
  | [] => [(k, v)]
  | (k', v') :: rest =>
    if k' = k then (k, v) :: rest else (k', v') :: dictSet k v rest

/-- Python dict lookup `d.get(k)`. -/
def dictFind? (k : List Char) : List (List Char × α) → Option α
  | [] => none
  | (k', v') :: rest => if k' = k then some v' else dictFind? k rest

/-- Failure modes of `proc_asr.make_toks_arr`; in Python each is a
`KeyError`. -/
inductive ExtractErr where
  | doubleAlign
  | doubleSentence
  | missingToken
  | unaligned
deriving DecidableEq, Repr

/-- The `tos` dictionary after the first loop: one entry per token
annotation, keyed by token id, holding only the word. -/
def buildTos (v : AsrView) : List (List Char × TokInfo) :=
  v.toanns.foldl (fun d a => dictSet a.id ⟨a.word, none, none⟩ d) []

/-- The `tfs` dictionary: time spans of annotations whose `frameType` is
`"speech"`, keyed by time frame id. -/
def buildTfs (v : AsrView) : List (List Char × (Int × Int)) :=
  v.tfanns.foldl
    (fun d a =>
      if a.frameType = "speech".toList then dictSet a.id (a.start, a.stop) d
      else d) []

/-- Alignment loop of `proc_asr.make_toks_arr`: attach time spans to tokens;
aligning a token twice is a fatal error. -/
def addAligns (tfs : List (List Char × (Int × Int))) :
    List AlignAnn → List (List Char × TokInfo) →
    Except ExtractErr (List (List Char × TokInfo))
  | [], d => .ok d
  | al :: rest, d =>
    match dictFind? al.target d, dictFind? al.source tfs with
    | some info, some span =>
      match info.tspan with
      | none => addAligns tfs rest (dictSet al.target { info with tspan := some span } d)
      | some _ => .error .doubleAlign
    | _, _ => addAligns tfs rest d

/-- Inner sentence loop: attach sentence id `sid` to each target token;
a missing token id or an already-sentenced token is a fatal error. -/
def addSentTargets (sid : List Char) :
    List (List Char) → List (List Char × TokInfo) →
    Except ExtractErr (List (List Char × TokInfo))
  | [], d => .ok d
  | tid :: rest, d =>
    match dictFind? tid d with
    | none => .error .missingToken
    | some info =>
      match info.sid with
      | none => addSentTargets sid rest (dictSet tid { info with sid := some sid } d)
      | some _ => .error .doubleSentence

/-- Outer sentence loop over the sentence annotations. -/
def addSents : List SentAnn → List (List Char × TokInfo) →
    Except ExtractErr (List (List Char × TokInfo))
  | [], d => .ok d
  | st :: rest, d => do
    let d' ← addSentTargets st.id st.targets d
    addSents rest d'

/-- Final comprehension of `proc_asr.make_toks_arr`: one row per dictionary
entry; a token that never received a time span raises `KeyError`
(`tos[k]["tspan"]`), while a missing sentence id becomes `None`
(`tos[k].get("sid")`). -/
def rowsOf : List (List Char × TokInfo) → Except ExtractErr (List Tok)
  | [] => .ok []
  | (_, info) :: rest =>
    match info.tspan with
    | none => .error .unaligned
    | some (s, e) => do
      let r ← rowsOf rest
      pure (⟨s, e, info.word, info.sid⟩ :: r)

/-- Embedding of `proc_asr.make_toks_arr`: build the dictionaries, run the
alignment and sentence loops, emit rows, and sort them by start time. -/
def make_toks_arr_asr (v : AsrView) : Except ExtractErr (List Tok) := do
  let tos := buildTos v
  let tos ← addAligns (buildTfs v) v.alanns tos
  let tos ← addSents v.stanns tos
  let rows ← rowsOf tos
  pure (rows.mergeSort (fun a b => a.start ≤ b.start))

/-- Intermediate row of the pandas model: time span, word, and the token id
still needed for the sentence join. -/
structure WRow where
  start : Int
  stop : Int
  word : List Char
  toId : List Char
deriving DecidableEq, Repr

/-- Embedding of `proc_ww.make_toks_arr`.  The inner joins
`pd.merge(tfs_df, pd.merge(tos_df, als_df))` keep only tokens that are
aligned to a speech time frame (unaligned tokens are silently dropped); the
left join with the sentence pairs leaves `None` where a token has no
sentence. -/
def make_toks_arr_ww (v : AsrView) : List Tok :=
  let tfs := (v.tfanns.filter (fun a => a.frameType = "speech".toList)).map
    (fun a => (a.id, a.start, a.stop))
  let sts := v.stanns.flatMap (fun ann => ann.targets.map (fun tg => (tg, ann.id)))
  let m1 := v.toanns.flatMap (fun ta =>
    (v.alanns.filter (fun al => al.target = ta.id)).map
      (fun al => (ta.id, ta.word, al.source)))
  let m2 := tfs.flatMap (fun tf =>
    (m1.filter (fun r => r.2.2 = tf.1)).map
      (fun r => WRow.mk tf.2.1 tf.2.2 r.2.1 r.1))
  let m3 := if sts.isEmpty then
      m2.map (fun r => Tok.mk r.start r.stop r.word none)
    else
      m2.flatMap (fun r =>
        match sts.filter (fun p => p.1 = r.toId) with
        | [] => [Tok.mk r.start r.stop r.word none]
        | ms => ms.map (fun p => Tok.mk r.start r.stop r.word (some p.2)))
  m3.mergeSort (fun a b => a.start ≤ b.start)

/-! Basic properties of sentence concatenation lengths. -/

/-- Number of characters a token contributes to a sentence it does not
open: its text plus a space unless it starts with a no-space-before
character. -/
def sepLen (t : Tok) : Nat :=
  if nsb (t.text.headD ' ') then t.text.length else t.text.length + 1

lemma concatStep_nil (t : Tok) : concatStep [] t = t.text := by
  simp [concatStep]

lemma length_concatStep (st : List Char) (t : Tok) (h : st ≠ []) :
    (concatStep st t).length = st.length + sepLen t := by
  have hl : st.length > 0 := List.length_pos.mpr h
  unfold concatStep sepLen
  cases hn : nsb (t.text.headD ' ') <;> simp [hl] <;> omega

lemma concatStep_ne_nil (st : List Char) (t : Tok) (h : st ≠ []) :
    concatStep st t ≠ [] := by
  unfold concatStep
  cases hn : (st.length > 0 && !nsb (t.text.headD ' ')) <;> simp [h]

lemma length_le_length_concatStep (st : List Char) (t : Tok) :
    st.length ≤ (concatStep st t).length := by
  unfold concatStep
  cases hn : (st.length > 0 && !nsb (t.text.headD ' ')) <;> simp

lemma length_le_foldl_concatStep (l : List Tok) :
    ∀ st : List Char, st.length ≤ (l.foldl concatStep st).length := by
  induction l with
  | nil => intro st; simp
  | cons t ts ih =>
    intro st
    calc st.length ≤ (concatStep st t).length := length_le_length_concatStep st t
    _ ≤ _ := ih (concatStep st t)

lemma length_foldl_concatStep (l : List Tok) :
    ∀ st : List Char, st ≠ [] →
    (l.foldl concatStep st).length = st.length + (l.map sepLen).sum := by
  induction l with
  | nil => intro st _; simp
  | cons t ts ih =>
    intro st hst
    have h1 := length_concatStep st t hst
    have h2 := ih (concatStep st t) (concatStep_ne_nil st t hst)
    simp only [List.foldl_cons, List.map_cons, List.sum_cons, h2, h1]
    omega

lemma concatSt_cons (t : Tok) (ts : List Tok) :
    concatSt (t :: ts) = ts.foldl concatStep t.text := by
  simp [concatSt, concatStep_nil]

lemma cLen_nil : cLen ([] : List Tok) = 0 := rfl

lemma cLen_singleton (t : Tok) : cLen [t] = t.text.length := by
  simp [cLen, concatSt, concatStep_nil]

lemma cLen_cons (t : Tok) (ts : List Tok) (h : t.text ≠ []) :
    cLen (t :: ts) = t.text.length + (ts.map sepLen).sum := by
  simp [cLen, concatSt_cons, length_foldl_concatStep ts t.text h]

lemma text_length_le_sepLen (t : Tok) : t.text.length ≤ sepLen t := by
  unfold sepLen; split <;> omega

lemma cLen_take_le (l : List Tok) (i : Nat) : cLen (l.take i) ≤ cLen l := by
  conv_rhs => rw [show l = l.take i ++ l.drop i by simp]
  simp only [cLen, concatSt, List.foldl_append]
  exact length_le_foldl_concatStep (l.drop i) _

lemma sum_le_sum_of_sublist {l₁ l₂ : List Nat} (h : l₁.Sublist l₂) :
    l₁.sum ≤ l₂.sum := by
  induction h with
  | slnil => simp
  | cons a h ih => simp only [List.sum_cons]; omega
  | cons₂ a h ih => simp only [List.sum_cons]; omega

lemma cLen_take_mono (l : List Tok) {i j : Nat} (h : i ≤ j) :
    cLen (l.take i) ≤ cLen (l.take j) := by
  rw [show l.take i = (l.take j).take i by rw [List.take_take, Nat.min_eq_left h]]
  exact cLen_take_le (l.take j) i

lemma cLen_le_of_sublist {s l : List Tok} (h : s.Sublist l)
    (hw : ∀ t ∈ l, t.text ≠ []) : cLen s ≤ cLen l := by
  induction h with
  | slnil => simp
  | @cons s' l' a h ih =>
    have h1 : cLen s' ≤ cLen l' := ih (fun t ht => hw t (List.mem_cons_of_mem a ht))
    have h2 : cLen l' ≤ cLen (a :: l') := by
      cases l' with
      | nil => simp [cLen_nil, cLen_singleton]
      | cons b l'' =>
        rw [cLen_cons b l'' (hw b (by simp)),
          cLen_cons a (b :: l'') (hw a (by simp))]
        simp only [List.map_cons, List.sum_cons]
        have := text_length_le_sepLen b
        omega
    omega
  | @cons₂ s' l' a h ih =>
    rw [cLen_cons a s' (hw a (by simp)), cLen_cons a l' (hw a (by simp))]
    have : (s'.map sepLen).sum ≤ (l'.map sepLen).sum :=
      sum_le_sum_of_sublist (h.map sepLen)
    omega

/-! Properties of the scan and backtrack steps of `split_long_segs`. -/

/-- Invariant of `lasti` during the scan: either it is still the initial
`0`, or the sentence up to and including token `lasti` fits in the
budget. -/
def scanP (sub : List Tok) (max_chars : Int) (l : Nat) : Prop :=
  l = 0 ∨ ((cLen (sub.take (l + 1)) : Int) ≤ max_chars)

lemma concatSt_take_succ (sub : List Tok) (i : Nat) (t : Tok) (rest : List Tok)
    (h : sub.drop i = t :: rest) :
    concatSt (sub.take (i + 1)) = concatStep (concatSt (sub.take i)) t := by
  have : sub.take (i + 1) = sub.take i ++ [t] := by
    rw [List.take_add, h]
    simp
  rw [this]
  simp [concatSt, List.foldl_append]

lemma scanGo_P (sub : List Tok) (max_chars : Int) (d : Nat) :
    ∀ (rest : List Tok) (i : Nat) (st : List Char) (lasti : Nat),
    sub.drop i = rest → st = concatSt (sub.take i) →
    scanP sub max_chars lasti →
    scanP sub max_chars (scanGo sub max_chars d rest i st lasti) := by
  intro rest
  induction rest with
  | nil => intro i st lasti _ _ hP; exact hP
  | cons t rest' ih =>
    intro i st lasti hdrop hst hP
    rw [scanGo]
    apply ih (i + 1)
    · rw [← List.drop_drop, hdrop]; rfl
    · rw [hst, concatSt_take_succ sub i t rest' hdrop]
    · set adv := (decide (((concatStep st t).length : Int) ≤ max_chars) &&
        decide (i + d < sub.length) &&
        (match sub.get? (i + 1) with
         | some u => !(nsb (u.text.headD ' '))
         | none => false)) with hadv
      by_cases h : adv = true
      · rw [if_pos h]
        right
        have h1 : (decide (((concatStep st t).length : Int) ≤ max_chars)) = true := by
          rw [hadv] at h
          exact Bool.and_elim_left (Bool.and_elim_left h)
        have h2 : ((concatStep st t).length : Int) ≤ max_chars := of_decide_eq_true h1
        have h3 : concatSt (sub.take (i + 1)) = concatStep st t := by
          rw [hst] at *
          exact concatSt_take_succ sub i t rest' hdrop
        simpa [cLen, h3] using h2
      · rw [if_neg h]; exact hP

lemma scanGo_le (sub : List Tok) (max_chars : Int) (d : Nat) (hd : 1 ≤ d) :
    ∀ (rest : List Tok) (i : Nat) (st : List Char) (lasti : Nat),
    lasti ≤ sub.length - 2 →
    scanGo sub max_chars d rest i st lasti ≤ sub.length - 2 := by
  intro rest
  induction rest with
  | nil => intro i st lasti h; exact h
  | cons t rest' ih =>
    intro i st lasti h
    rw [scanGo]
    apply ih
    split
    next hadv =>
      have h2 : (decide (i + d < sub.length)) = true :=
        Bool.and_elim_right (Bool.and_elim_left hadv)
      have h3 : i + d < sub.length := of_decide_eq_true h2
      omega
    next => exact h

lemma btGo_le (sub : List Tok) (lasti : Nat) :
    ∀ ks : List Nat, btGo sub lasti ks ≤ lasti := by
  intro ks
  induction ks with
  | nil => simp [btGo]
  | cons k ks ih =>
    rw [btGo]
    split
    · split
      · split
        · omega
        · exact ih
      · exact ih
    · exact ih

lemma backtrackStep_le (sub : List Tok) (lasti : Nat) (b : Nat) :
    backtrackStep sub lasti b ≤ lasti := by
  rw [backtrackStep]
  split
  · split
    · exact Nat.le_refl _
    · exact btGo_le sub lasti _
  · exact Nat.le_refl _

lemma scanP_mono (sub : List Tok) (max_chars : Int) {l l' : Nat}
    (hP : scanP sub max_chars l) (h : l' ≤ l) : scanP sub max_chars l' := by
  rcases hP with h0 | hB
  · left; omega
  · by_cases h' : l' = 0
    · left; exact h'
    · right
      calc (cLen (sub.take (l' + 1)) : Int) ≤ (cLen (sub.take (l + 1)) : Int) := by
            exact_mod_cast cLen_take_mono sub (by omega)
      _ ≤ max_chars := hB

/-- The kept part of a sentence being split fits in the budget: after the
scan and the backtrack, the sentence formed by tokens `0 … lasti` is at most
`max_chars` characters (the case `lasti = 0` is a single token, bounded by
the hypothesis on token texts). -/
lemma kept_bound (sub : List Tok) (max_chars : Int) (d b : Nat)
    (hw : ∀ t ∈ sub, (t.text.length : Int) ≤ max_chars) (hne : sub ≠ []) :
    (cLen (sub.take (backtrackStep sub (scanLasti sub max_chars d) b + 1)) : Int)
      ≤ max_chars := by
  have hP0 : scanP sub max_chars 0 := Or.inl rfl
  have hP1 : scanP sub max_chars (scanLasti sub max_chars d) :=
    scanGo_P sub max_chars d sub 0 [] 0 rfl rfl hP0
  have hP2 : scanP sub max_chars (backtrackStep sub (scanLasti sub max_chars d) b) :=
    scanP_mono sub max_chars hP1 (backtrackStep_le sub _ b)
  rcases hP2 with h0 | hB
  · rw [h0]
    cases sub with
    | nil => exact absurd rfl hne
    | cons t ts =>
      have h1 : (t :: ts).take (0 + 1) = [t] := rfl
      rw [h1, cLen_singleton]
      exact hw t (by simp)
  · exact hB

/-- With at least one token required to dangle, the split point leaves a
non-empty remainder. -/
lemma split_point_lt (sub : List Tok) (max_chars : Int) (d b : Nat)
    (hd : 1 ≤ d) (h2 : 2 ≤ sub.length) :
    backtrackStep sub (scanLasti sub max_chars d) b + 1 < sub.length := by
  have h1 : scanLasti sub max_chars d ≤ sub.length - 2 :=
    scanGo_le sub max_chars d hd sub 0 [] 0 (by omega)
  have h3 := backtrackStep_le sub (scanLasti sub max_chars d) b
  omega

/-- A sentence that exceeds a non-negative budget, all of whose tokens fit
in the budget, has at least two tokens. -/
lemma two_le_length_of_over (sub : List Tok) (max_chars : Int)
    (hm : 0 ≤ max_chars)
    (hw : ∀ t ∈ sub, (t.text.length : Int) ≤ max_chars)
    (h : max_chars < (cLen sub : Int)) : 2 ≤ sub.length := by
  match sub with
  | [] => rw [cLen_nil] at h; omega
  | [t] =>
    rw [cLen_singleton] at h
    exact absurd (hw t (by simp)) (by omega)
  | t :: u :: rest => simp

/-- Decidable equality on `Except`, for evaluating the splitter on concrete
inputs. -/
instance {ε α : Type} [DecidableEq ε] [DecidableEq α] : DecidableEq (Except ε α) := fun a b =>
  match a, b with
  | .ok x, .ok y =>
      if h : x = y then .isTrue (by rw [h]) else .isFalse (fun hh => h (Except.ok.inj hh))
  | .error x, .error y =>
      if h : x = y then .isTrue (by rw [h]) else .isFalse (fun hh => h (Except.error.inj hh))
  | .ok _, .error _ => .isFalse (fun hh => Except.noConfusion hh)
  | .error _, .ok _ => .isFalse (fun hh => Except.noConfusion hh)

/-! Label lineage: `split_long_segs` only ever rewrites a label by appending
copies of `"_x"`, and never touches times or texts. -/

/-- The suffix `"_x"` repeated `k` times. -/
def xRep : Nat → List Char
  | 0 => []
  | k + 1 => xRep k ++ xSuf

lemma xRep_add (m n : Nat) : xRep (m + n) = xRep m ++ xRep n := by
  induction n with
  | zero => simp [xRep]
  | succ n ih => rw [show m + (n + 1) = (m + n) + 1 by omega]; simp [xRep, ih]

lemma xSuf_append_xRep (k : Nat) : xSuf ++ xRep k = xRep (k + 1) := by
  induction k with
  | zero => simp [xRep]
  | succ k ih => rw [xRep, ← List.append_assoc, ih, ← xRep]

/-- Row `u` descends from row `t`: same times and text, and the label of `t`
extended by finitely many copies of `"_x"`. -/
def Lineage (t u : Tok) : Prop :=
  u.start = t.start ∧ u.stop = t.stop ∧ u.text = t.text ∧
    ∃ k, u.label = t.label.map (· ++ xRep k)

lemma Lineage.refl (t : Tok) : Lineage t t := by
  refine ⟨rfl, rfl, rfl, 0, ?_⟩
  cases ht : t.label <;> simp [xRep, ht]

lemma Lineage.trans {t u v : Tok} (h1 : Lineage t u) (h2 : Lineage u v) :
    Lineage t v := by
  obtain ⟨ha, hb, hc, k1, hk1⟩ := h1
  obtain ⟨ha', hb', hc', k2, hk2⟩ := h2
  refine ⟨ha'.trans ha, hb'.trans hb, hc'.trans hc, k1 + k2, ?_⟩
  rw [hk2, hk1, Option.map_map]
  cases ht : t.label with
  | none => simp
  | some s => simp [Function.comp, xRep_add, List.append_assoc]

lemma forall₂_lineage_refl (l : List Tok) : List.Forall₂ Lineage l l := by
  induction l with
  | nil => exact List.Forall₂.nil
  | cons t ts ih => exact List.Forall₂.cons (Lineage.refl t) ih

lemma forall₂_lineage_trans {l₁ l₂ l₃ : List Tok}
    (h1 : List.Forall₂ Lineage l₁ l₂) (h2 : List.Forall₂ Lineage l₂ l₃) :
    List.Forall₂ Lineage l₁ l₃ := by
  induction h1 generalizing l₃ with
  | nil => cases h2; exact List.Forall₂.nil
  | cons h hrest ih =>
    cases h2 with
    | cons h' hrest' => exact List.Forall₂.cons (h.trans h') (ih hrest')

lemma forall₂_mem {R : Tok → Tok → Prop} {l₁ l₂ : List Tok}
    (h : List.Forall₂ R l₁ l₂) {u : Tok} (hu : u ∈ l₂) :
    ∃ t ∈ l₁, R t u := by
  induction h with
  | nil => cases hu
  | cons hR hrest ih =>
    rcases List.mem_cons.mp hu with h' | h'
    · exact ⟨_, by simp, h' ▸ hR⟩
    · obtain ⟨t, ht, hRt⟩ := ih h'
      exact ⟨t, by simp [ht], hRt⟩

lemma lineage_xmap (t : Tok) : Lineage t (xmap t) := by
  refine ⟨rfl, rfl, rfl, 1, ?_⟩
  cases ht : t.label <;> simp [xmap, xRep, ht]

lemma relabelAfter_lineage (sub : List Tok) (l : Nat) :
    List.Forall₂ Lineage sub (relabelAfter sub l) := by
  conv_lhs => rw [show sub = sub.take (l + 1) ++ sub.drop (l + 1) by simp]
  apply List.rel_append
  · exact forall₂_lineage_refl _
  · induction sub.drop (l + 1) with
    | nil => exact List.Forall₂.nil
    | cons t ts ih => exact List.Forall₂.cons (lineage_xmap t) ih

lemma writeLabels_lineage (id : List Char) :
    ∀ (toks news : List Tok),
    List.Forall₂ Lineage (toks.filter (fun t => t.label = some id)) news →
    List.Forall₂ Lineage toks (writeLabels id toks news) := by
  intro toks
  induction toks with
  | nil => intro news _; exact List.Forall₂.nil
  | cons t ts ih =>
    intro news h
    by_cases ht : t.label = some id
    · rw [List.filter_cons_of_pos (by simpa using ht)] at h
      cases h with
      | cons hR hrest =>
        simp only [writeLabels, if_pos ht]
        refine List.Forall₂.cons ?_ (ih _ hrest)
        obtain ⟨_, _, _, k, hk⟩ := hR
        exact ⟨rfl, rfl, rfl, k, hk⟩
    · rw [List.filter_cons_of_neg (by simpa using ht)] at h
      simp only [writeLabels, if_neg ht]
      exact List.Forall₂.cons (Lineage.refl t) (ih _ h)

lemma except_bind_ok {ε α β : Type} (x : Except ε α) (f : α → Except ε β) (v : β) :
    (x >>= f) = .ok v ↔ ∃ a, x = .ok a ∧ f a = .ok v := by
  cases x with
  | ok a => simp [Bind.bind, Except.bind]
  | error e => simp [Bind.bind, Except.bind]

/-- Every normal return of the id-processing loop relates to its input table
by `Lineage`, provided the nested recursive call does. -/
lemma processIds_lineage (rec : List Tok → Except SplitErr (List Tok))
    (hrec : ∀ ts out, rec ts = .ok out → List.Forall₂ Lineage ts out) :
    ∀ (ids : List (List Char)) (toks : List Tok) (max_chars : Int) (b d : Nat)
      (out : List Tok),
    processIds rec ids toks max_chars b d = .ok out →
    List.Forall₂ Lineage toks out := by
  intro ids
  induction ids with
  | nil =>
    intro toks max_chars b d out h
    simp only [processIds] at h
    cases h
    exact forall₂_lineage_refl _
  | cons id rest ih =>
    intro toks max_chars b d out h
    simp only [processIds] at h
    split at h
    · rw [except_bind_ok] at h
      obtain ⟨subSplit, hrc, h⟩ := h
      have h1 : List.Forall₂ Lineage (toks.filter (fun t => t.label = some id)) subSplit :=
        forall₂_lineage_trans (relabelAfter_lineage _ _) (hrec _ _ hrc)
      have h2 : List.Forall₂ Lineage toks (writeLabels id toks subSplit) :=
        writeLabels_lineage id toks subSplit h1
      exact forall₂_lineage_trans h2 (ih _ _ _ _ _ h)
    · exact ih _ _ _ _ _ h

/-- Label lineage for `split_long_segs`: any normal return has the same
times and texts row by row, with labels only extended by `"_x"` copies. -/
lemma split_lineage :
    ∀ (fuel : Nat) (toks : List Tok) (max_chars : Int) (b d : Nat) (out : List Tok),
    split_long_segs fuel toks max_chars b d = .ok out →
    List.Forall₂ Lineage toks out := by
  intro fuel
  induction fuel with
  | zero => intro toks max_chars b d out h; exact absurd h (by simp [split_long_segs])
  | succ fuel ih =>
    intro toks max_chars b d out h
    rw [split_long_segs] at h
    split at h
    · cases h; exact forall₂_lineage_refl _
    · split at h
      · exact absurd h (by simp)
      · rw [except_bind_ok] at h
        obtain ⟨ids, hids, h⟩ := h
        exact processIds_lineage _ (fun ts o hh => ih ts max_chars b d o hh)
          ids toks max_chars b d out h

/-! Properties of the sentence-id list construction. -/

lemma buildStIdsGo_ok (toks : List Tok) :
    ∀ acc, (∀ t ∈ toks, t.label.isSome) →
    ∃ ids, buildStIdsGo acc toks = .ok ids := by
  induction toks with
  | nil => intro acc _; exact ⟨acc.reverse, rfl⟩
  | cons t rest ih =>
    intro acc hs
    obtain ⟨s, hs0⟩ := Option.isSome_iff_exists.mp (hs t (by simp))
    rw [buildStIdsGo, hs0]
    exact ih _ (fun u hu => hs u (by simp [hu]))

lemma buildStIdsGo_err (toks : List Tok) :
    ∀ acc e, buildStIdsGo acc toks = .error e → e = .label := by
  induction toks with
  | nil => intro acc e h; exact absurd h (by simp [buildStIdsGo])
  | cons t rest ih =>
    intro acc e h
    rw [buildStIdsGo] at h
    cases ht : t.label with
    | none => rw [ht] at h; cases h; rfl
    | some s => rw [ht] at h; exact ih _ e h

lemma buildStIdsGo_spec (toks : List Tok) :
    ∀ acc ids, buildStIdsGo acc toks = .ok ids →
    (acc.Nodup → ids.Nodup) ∧
    (∀ s, s ∈ ids ↔ s ∈ acc ∨ ∃ t ∈ toks, t.label = some s) := by
  induction toks with
  | nil =>
    intro acc ids h
    rw [buildStIdsGo] at h
    cases h
    constructor
    · intro hn; simpa using hn
    · intro s; simp
  | cons t rest ih =>
    intro acc ids h
    rw [buildStIdsGo] at h
    cases ht : t.label with
    | none => rw [ht] at h; cases h
    | some s0 =>
      rw [ht] at h
      obtain ⟨hnd, hmem⟩ := ih _ ids h
      constructor
      · intro hn
        apply hnd
        by_cases hin : s0 ∈ acc
        · simpa [hin] using hn
        · simp only [if_neg hin]
          exact List.Nodup.cons hin hn
      · intro s
        rw [hmem s]
        by_cases hin : s0 ∈ acc
        · simp only [if_pos hin]
          constructor
          · rintro (h' | ⟨u, hu, hlu⟩)
            · exact Or.inl h'
            · exact Or.inr ⟨u, List.mem_cons_of_mem t hu, hlu⟩
          · rintro (h' | ⟨u, hu, hlu⟩)
            · exact Or.inl h'
            · rcases List.mem_cons.mp hu with h1 | h1
              · left; rw [h1, ht] at hlu; cases hlu; exact hin
              · exact Or.inr ⟨u, h1, hlu⟩
        · simp only [if_neg hin, List.mem_cons]
          constructor
          · rintro ((h' | h') | ⟨u, hu, hlu⟩)
            · exact Or.inr ⟨t, Or.inl rfl, by rw [ht, h']⟩
            · exact Or.inl h'
            · exact Or.inr ⟨u, Or.inr hu, hlu⟩
          · rintro (h' | ⟨u, hu, hlu⟩)
            · exact Or.inl (Or.inr h')
            · rcases hu with h1 | h1
              · left; left; rw [h1, ht] at hlu; cases hlu; rfl
              · exact Or.inr ⟨u, h1, hlu⟩

lemma buildStIds_spec (toks : List Tok) (ids : List (List Char))
    (h : buildStIds toks = .ok ids) :
    ids.Nodup ∧ (∀ s, s ∈ ids ↔ ∃ t ∈ toks, t.label = some s) := by
  obtain ⟨hnd, hmem⟩ := buildStIdsGo_spec toks [] ids h
  exact ⟨hnd (by simp), fun s => by simpa using hmem s⟩

lemma buildStIdsGo_skip (g : List Char) :
    ∀ (l l₂ : List Tok) (acc : List (List Char)),
    (∀ t ∈ l, t.label = some g) → g ∈ acc →
    buildStIdsGo acc (l ++ l₂) = buildStIdsGo acc l₂ := by
  intro l
  induction l with
  | nil => intro l₂ acc _ _; rfl
  | cons t rest ih =>
    intro l₂ acc hl hg
    have ht : t.label = some g := hl t (by simp)
    rw [List.cons_append, buildStIdsGo, ht]
    simp only [if_pos hg]
    exact ih l₂ acc (fun u hu => hl u (by simp [hu])) hg

/-- Value of `buildStIds` on a table whose tokens carry the label `g` and
then the label `h`, as produced by the splitter's relabelling step. -/
lemma buildStIds_AB (A B : List Tok) (g h : List Char)
    (hA : ∀ t ∈ A, t.label = some g) (hB : ∀ t ∈ B, t.label = some h)
    (hAne : A ≠ []) (hgh : g ≠ h) :
    buildStIds (A ++ B) = .ok (if B = [] then [g] else [g, h]) := by
  cases A with
  | nil => exact absurd rfl hAne
  | cons a A' =>
    have ha : a.label = some g := hA a (by simp)
    rw [List.cons_append, buildStIds, buildStIdsGo, ha]
    show buildStIdsGo (if g ∈ ([] : List (List Char)) then [] else [g]) (A' ++ B) = _
    rw [if_neg (by simp)]
    rw [buildStIdsGo_skip g A' B [g] (fun u hu => hA u (by simp [hu])) (by simp)]
    cases B with
    | nil => simp [buildStIdsGo]
    | cons b B' =>
      have hb : b.label = some h := hB b (by simp)
      rw [buildStIdsGo, hb]
      show buildStIdsGo (if h ∈ [g] then [g] else h :: [g]) B' = _
      rw [if_neg (by simp [Ne.symm hgh])]
      rw [show B' = B' ++ [] from (List.append_nil B').symm]
      rw [buildStIdsGo_skip h B' [] [h, g] (fun u hu => hB u (by simp [hu])) (by simp)]
      simp [buildStIdsGo]

/-- A loop pass over ids whose sentences all fit leaves the table
untouched. -/
lemma processIds_skip_all (rec : List Tok → Except SplitErr (List Tok)) :
    ∀ (ids : List (List Char)) (toks : List Tok) (max_chars : Int) (b d : Nat),
    (∀ id ∈ ids, (cLen (toks.filter (fun t => t.label = some id)) : Int) ≤ max_chars) →
    processIds rec ids toks max_chars b d = .ok toks := by
  intro ids
  induction ids with
  | nil => intro toks max_chars b d _; rfl
  | cons id rest ih =>
    intro toks max_chars b d hle
    rw [processIds, if_neg (by push_neg; exact hle id (by simp))]
    exact ih toks max_chars b d (fun i hi => hle i (by simp [hi]))

/-- Helper: a bind is an error iff its first stage is that error or its
first stage succeeds and the continuation is that error. -/
lemma except_bind_err {ε α β : Type} (x : Except ε α) (f : α → Except ε β) (e : ε) :
    (x >>= f) = .error e ↔ x = .error e ∨ ∃ a, x = .ok a ∧ f a = .error e := by
  cases x with
  | ok a => simp [Bind.bind, Except.bind]
  | error e' => simp [Bind.bind, Except.bind]

lemma processIds_ne_maxChars (rec : List Tok → Except SplitErr (List Tok))
    (hrec : ∀ ts, rec ts ≠ .error .maxChars) :
    ∀ (ids : List (List Char)) (toks : List Tok) (max_chars : Int) (b d : Nat),
    processIds rec ids toks max_chars b d ≠ .error .maxChars := by
  intro ids
  induction ids with
  | nil => intro toks max_chars b d; simp [processIds]
  | cons id rest ih =>
    intro toks max_chars b d
    rw [processIds]
    split
    · intro h
      rw [except_bind_err] at h
      rcases h with h | ⟨a, ha, h⟩
      · exact hrec _ h
      · exact ih _ _ _ _ h
    · exact ih _ _ _ _


lemma split_ne_maxChars (max_chars : Int) (hm : 10 ≤ max_chars) :
    ∀ (fuel : Nat) (toks : List Tok) (b d : Nat),
    split_long_segs fuel toks max_chars b d ≠ .error .maxChars := by
  intro fuel
  induction fuel with
  | zero => intro toks b d; simp [split_long_segs]
  | succ fuel ih =>
    intro toks b d
    rw [split_long_segs, if_neg (by omega), if_neg (by omega)]
    intro h
    rw [except_bind_err] at h
    rcases h with h | ⟨ids, hids, h⟩
    · cases he : buildStIds toks with
      | error e =>
        rw [he] at h
        cases h
        exact absurd (buildStIdsGo_err toks [] _ he) (by simp)
      | ok i => rw [he] at h; cases h
    · exact processIds_ne_maxChars _ (fun ts => ih ts b d) ids toks max_chars b d h

/-! Termination of the splitter on sanitized input: each nested call works on
a two-label table whose first group already fits, and whose second group
strictly shrinks. -/

lemma ne_append_xSuf (g : List Char) : g ≠ g ++ xSuf := by
  intro h
  have := congrArg List.length h
  simp [xSuf] at this

lemma xmap_label (t : Tok) (g : List Char) (h : t.label = some g) :
    (xmap t).label = some (g ++ xSuf) := by
  simp [xmap, h]

lemma relabel_mem_text (sub : List Tok) (l : Nat) {P : List Char → Prop}
    (h : ∀ t ∈ sub, P t.text) : ∀ t ∈ relabelAfter sub l, P t.text := by
  intro t ht
  rcases List.mem_append.mp ht with h1 | h1
  · exact h t (List.take_subset _ _ h1)
  · obtain ⟨u, hu, rfl⟩ := List.mem_map.mp h1
    exact h u (List.drop_subset _ _ hu)

lemma filter_all_eq (l : List Tok) (g : List Char)
    (h : ∀ t ∈ l, t.label = some g) :
    l.filter (fun t => t.label = some g) = l :=
  List.filter_eq_self.mpr (fun t ht => by simp [h t ht])

lemma filter_other_eq_nil (l : List Tok) (g g' : List Char)
    (h : ∀ t ∈ l, t.label = some g) (hne : g ≠ g') :
    l.filter (fun t => t.label = some g') = [] := by
  rw [List.filter_eq_nil]
  intro t ht
  simp [h t ht, hne]

/-- Termination on the two-label shape produced by a relabelling: the first
group fits the budget, so only the second group can recurse, and it loses at
least one token each time. -/
lemma split_term_AB :
    ∀ (fuel : Nat) (A B : List Tok) (g : List Char) (max_chars : Int) (b d : Nat),
    (∀ t ∈ A, t.label = some g) → (∀ t ∈ B, t.label = some (g ++ xSuf)) →
    (∀ t ∈ A ++ B, t.text ≠ [] ∧ (t.text.length : Int) ≤ max_chars) →
    A ≠ [] → (cLen A : Int) ≤ max_chars → 1 ≤ d → 10 ≤ max_chars →
    B.length + 1 ≤ fuel →
    ∃ out, split_long_segs fuel (A ++ B) max_chars b d = .ok out := by
  intro fuel
  induction fuel with
  | zero => intro A B g max_chars b d _ _ _ _ _ _ _ hf; omega
  | succ fuel ih =>
    intro A B g max_chars b d hA hB htext hAne hAfit hd hm _
    rw [split_long_segs, if_neg (by omega), if_neg (by omega)]
    rw [buildStIds_AB A B g (g ++ xSuf) hA hB hAne (ne_append_xSuf g)]
    have hfiltA : (A ++ B).filter (fun t => t.label = some g) = A := by
      rw [List.filter_append, filter_all_eq A g hA,
        filter_other_eq_nil B (g ++ xSuf) g hB (Ne.symm (ne_append_xSuf g)),
        List.append_nil]
    by_cases hBc : B = []
    · rw [if_pos hBc]
      refine ⟨A ++ B, ?_⟩
      rw [except_bind_ok]
      refine ⟨[g], rfl, processIds_skip_all _ [g] (A ++ B) max_chars b d ?_⟩
      intro id hid
      rw [List.mem_singleton] at hid
      subst hid
      rw [hfiltA]
      exact hAfit
    · rw [if_neg hBc]
      show ∃ out, processIds (fun ts => split_long_segs fuel ts max_chars b d)
        [g, g ++ xSuf] (A ++ B) max_chars b d = .ok out
      rw [processIds, if_neg (by rw [hfiltA]; push_neg; exact hAfit)]
      rw [processIds]
      have hfiltB : (A ++ B).filter (fun t => t.label = some (g ++ xSuf)) = B := by
        rw [List.filter_append, filter_all_eq B (g ++ xSuf) hB,
          filter_other_eq_nil A g (g ++ xSuf) hA (ne_append_xSuf g),
          List.nil_append]
      rw [hfiltB]
      split
      next hover =>
        have htextB : ∀ t ∈ B, t.text ≠ [] ∧ (t.text.length : Int) ≤ max_chars :=
          fun t ht => htext t (by simp [ht])
        have h2B : 2 ≤ B.length :=
          two_le_length_of_over B max_chars (by omega)
            (fun t ht => (htextB t ht).2) hover
        set l2 := backtrackStep B (scanLasti B max_chars d) b with hl2
        have hlt : l2 + 1 < B.length := split_point_lt B max_chars d b hd h2B
        have hA2 : ∀ t ∈ B.take (l2 + 1), t.label = some (g ++ xSuf) :=
          fun t ht => hB t (List.take_subset _ _ ht)
        have hB2 : ∀ t ∈ (B.drop (l2 + 1)).map xmap,
            t.label = some ((g ++ xSuf) ++ xSuf) := by
          intro t ht
          obtain ⟨u, hu, rfl⟩ := List.mem_map.mp ht
          exact xmap_label u (g ++ xSuf) (hB u (List.drop_subset _ _ hu))
        have htext2 : ∀ t ∈ relabelAfter B l2, t.text ≠ [] ∧
            (t.text.length : Int) ≤ max_chars :=
          @relabel_mem_text B l2
            (fun tx => tx ≠ [] ∧ (tx.length : Int) ≤ max_chars) htextB
        have hA2ne : B.take (l2 + 1) ≠ [] := by
          cases B with
          | nil => exact absurd rfl hBc
          | cons x xs => simp [List.take_succ_cons]
        have hA2fit : (cLen (B.take (l2 + 1)) : Int) ≤ max_chars :=
          kept_bound B max_chars d b (fun t ht => (htextB t ht).2) hBc
        have hfuel2 : ((B.drop (l2 + 1)).map xmap).length + 1 ≤ fuel := by
          simp only [List.length_map, List.length_drop]
          omega
        obtain ⟨out2, hout2⟩ := ih (B.take (l2 + 1)) ((B.drop (l2 + 1)).map xmap)
          (g ++ xSuf) max_chars b d hA2 hB2 htext2 hA2ne hA2fit hd hm hfuel2
        refine ⟨writeLabels (g ++ xSuf) (A ++ B) out2, ?_⟩
        rw [except_bind_ok]
        exact ⟨out2, hout2, rfl⟩
      next =>
        exact ⟨A ++ B, rfl⟩

lemma lineage_text_pred {toks out : List Tok} {P : List Char → Prop}
    (h : List.Forall₂ Lineage toks out) (hp : ∀ t ∈ toks, P t.text) :
    ∀ u ∈ out, P u.text := by
  intro u hu
  obtain ⟨t, ht, hL⟩ := forall₂_mem h hu
  rw [hL.2.2.1]
  exact hp t ht

lemma lineage_label_isSome {toks out : List Tok}
    (h : List.Forall₂ Lineage toks out) (hl : ∀ t ∈ toks, t.label.isSome) :
    ∀ u ∈ out, u.label.isSome := by
  intro u hu
  obtain ⟨t, ht, hL⟩ := forall₂_mem h hu
  obtain ⟨-, -, -, k, hk⟩ := hL
  rw [hk]
  obtain ⟨s, hs⟩ := Option.isSome_iff_exists.mp (hl t ht)
  simp [hs]

lemma mem_filter_label {toks : List Tok} {id : List Char} {t : Tok}
    (h : t ∈ toks.filter (fun u => u.label = some id)) : t.label = some id := by
  have := List.of_mem_filter h
  simpa using this

/-- Termination of the id loop under the sanitized-input hypotheses.  Each
over-long sentence has at least two tokens, so its relabelled copy satisfies
the two-label shape and needs at most `|sentence| ≤ |table|` units of
fuel. -/
lemma processIds_term (fuel : Nat) (max_chars : Int) (b d : Nat)
    (hd : 1 ≤ d) (hm : 10 ≤ max_chars) :
    ∀ (ids : List (List Char)) (toks : List Tok),
    (∀ t ∈ toks, t.text ≠ [] ∧ (t.text.length : Int) ≤ max_chars) →
    toks.length + 1 ≤ fuel →
    ∃ out, processIds (fun ts => split_long_segs fuel ts max_chars b d)
      ids toks max_chars b d = .ok out := by
  intro ids
  induction ids with
  | nil => intro toks _ _; exact ⟨toks, rfl⟩
  | cons id rest ih =>
    intro toks htext hfuel
    rw [processIds]
    split
    next hover =>
      set sub := toks.filter (fun t => t.label = some id) with hsub
      have hsubtext : ∀ t ∈ sub, t.text ≠ [] ∧ (t.text.length : Int) ≤ max_chars :=
        fun t ht => htext t (List.mem_of_mem_filter ht)
      have h2 : 2 ≤ sub.length :=
        two_le_length_of_over sub max_chars (by omega)
          (fun t ht => (hsubtext t ht).2) hover
      have hsubne : sub ≠ [] := by
        intro h; rw [h] at h2; simp at h2
      set l2 := backtrackStep sub (scanLasti sub max_chars d) b with hl2
      have hlt : l2 + 1 < sub.length := split_point_lt sub max_chars d b hd h2
      have hsublen : sub.length ≤ toks.length := List.length_filter_le _ toks
      obtain ⟨subSplit, hsubok⟩ := split_term_AB fuel (sub.take (l2 + 1))
        ((sub.drop (l2 + 1)).map xmap) id max_chars b d
        (fun t ht => mem_filter_label (List.take_subset _ _ ht))
        (by
          intro t ht
          obtain ⟨u, hu, rfl⟩ := List.mem_map.mp ht
          exact xmap_label u id (mem_filter_label (List.drop_subset _ _ hu)))
        (@relabel_mem_text sub l2
          (fun tx => tx ≠ [] ∧ (tx.length : Int) ≤ max_chars) hsubtext)
        (by
          cases hc : sub with
          | nil => exact absurd hc hsubne
          | cons x xs => simp [List.take_succ_cons])
        (kept_bound sub max_chars d b (fun t ht => (hsubtext t ht).2) hsubne)
        hd hm
        (by simp only [List.length_map, List.length_drop]; omega)
      have hlin : List.Forall₂ Lineage toks (writeLabels id toks subSplit) :=
        writeLabels_lineage id toks subSplit
          (forall₂_lineage_trans (relabelAfter_lineage sub l2)
            (split_lineage fuel (relabelAfter sub l2) max_chars b d subSplit hsubok))
      obtain ⟨out, hout⟩ := ih (writeLabels id toks subSplit)
        (@lineage_text_pred toks (writeLabels id toks subSplit)
          (fun tx => tx ≠ [] ∧ (tx.length : Int) ≤ max_chars) hlin htext)
        (by rw [← hlin.length_eq]; exact hfuel)
      refine ⟨out, ?_⟩
      rw [except_bind_ok]
      exact ⟨subSplit, hsubok, hout⟩
    next =>
      exact ih toks htext hfuel

/-- Termination of `split_long_segs` itself: a table of `n` sanitized tokens
returns normally within `n + 2` units of recursion depth. -/
lemma split_term (fuel : Nat) (toks : List Tok) (max_chars : Int) (b d : Nat)
    (htext : ∀ t ∈ toks, t.text ≠ [] ∧ (t.text.length : Int) ≤ max_chars)
    (hlab : ∀ t ∈ toks, t.label.isSome)
    (hd : 1 ≤ d) (hm : 10 ≤ max_chars) (hfuel : toks.length + 2 ≤ fuel) :
    ∃ out, split_long_segs fuel toks max_chars b d = .ok out := by
  cases fuel with
  | zero => omega
  | succ f =>
    rw [split_long_segs, if_neg (by omega), if_neg (by omega)]
    obtain ⟨ids, hids⟩ := buildStIdsGo_ok toks [] hlab
    obtain ⟨out, hout⟩ := processIds_term f max_chars b d hd hm ids toks htext (by omega)
    refine ⟨out, ?_⟩
    rw [except_bind_ok]
    exact ⟨ids, hids, hout⟩

/-! The run decomposition and its agreement with `make_sts_arr`. -/

lemma runsAux_join (c : Tok) :
    ∀ (ts cs : List Tok), (runsAux c cs ts).flatten = (c :: cs) ++ ts := by
  intro ts
  induction ts generalizing c with
  | nil => intro cs; simp [runsAux]
  | cons t ts ih =>
    intro cs
    rw [runsAux]
    split
    · rw [ih c (cs ++ [t])]
      simp
    · simp [ih t []]

lemma runsOf_join (l : List Tok) : (runsOf l).flatten = l := by
  cases l with
  | nil => rfl
  | cons t ts => rw [runsOf, runsAux_join t ts []]; rfl

lemma runsAux_labels (c : Tok) :
    ∀ (ts cs : List Tok), (∀ u ∈ cs, u.label = c.label) →
    ∀ r ∈ runsAux c cs ts, ∃ lab, ∀ u ∈ r, u.label = lab := by
  intro ts
  induction ts generalizing c with
  | nil =>
    intro cs hcs r hr
    rw [runsAux, List.mem_singleton] at hr
    subst hr
    refine ⟨c.label, ?_⟩
    intro u hu
    rcases List.mem_cons.mp hu with h | h
    · rw [h]
    · exact hcs u h
  | cons t ts ih =>
    intro cs hcs r hr
    rw [runsAux] at hr
    split at hr
    next heq =>
      exact ih c (cs ++ [t]) (by
        intro u hu
        rcases List.mem_append.mp hu with h | h
        · exact hcs u h
        · rw [List.mem_singleton] at h; rw [h]; exact heq) r hr
    next =>
      rcases List.mem_cons.mp hr with h | h
      · subst h
        refine ⟨c.label, ?_⟩
        intro u hu
        rcases List.mem_cons.mp hu with h | h
        · rw [h]
        · exact hcs u h
      · exact ih t [] (by simp) r h

lemma runsOf_labels (l : List Tok) :
    ∀ r ∈ runsOf l, ∃ lab, ∀ u ∈ r, u.label = lab := by
  cases l with
  | nil => intro r hr; cases hr
  | cons t ts => exact runsAux_labels t ts [] (by simp)

lemma runsAux_ne_nil (c : Tok) :
    ∀ (ts cs : List Tok), ∀ r ∈ runsAux c cs ts, r ≠ [] := by
  intro ts
  induction ts generalizing c with
  | nil =>
    intro cs r hr
    rw [runsAux, List.mem_singleton] at hr
    subst hr; simp
  | cons t ts ih =>
    intro cs r hr
    rw [runsAux] at hr
    split at hr
    · exact ih c (cs ++ [t]) r hr
    · rcases List.mem_cons.mp hr with h | h
      · subst h; simp
      · exact ih t [] r h

lemma runsOf_ne_nil (l : List Tok) : ∀ r ∈ runsOf l, r ≠ [] := by
  cases l with
  | nil => intro r hr; cases hr
  | cons t ts => exact runsAux_ne_nil t ts []

lemma runsOf_sublist (l : List Tok) : ∀ r ∈ runsOf l, r.Sublist l := by
  intro r hr
  have h : r.Sublist (runsOf l).flatten := List.sublist_join hr
  rwa [runsOf_join l] at h

lemma segText_concat (c : Tok) (cs : List Tok) (t : Tok) :
    segText (c :: (cs ++ [t])) = sepStep (segText (c :: cs)) t := by
  simp [segText, List.foldl_append]

lemma segOfRun_cons (c : Tok) (cs : List Tok) :
    segOfRun (c :: cs) = ⟨c.start, (cs.getLastD c).stop, segText (c :: cs)⟩ := by
  unfold segOfRun
  rw [show (c :: cs).getLastD dTok = cs.getLastD c from List.getLastD_cons dTok c cs]
  rfl

/-- The accumulator loop of `make_sts_arr` computes exactly the mapped
segments of the run decomposition. -/
lemma mkSts_eq (c : Tok) :
    ∀ (ts cs : List Tok), (∀ u ∈ cs, u.label = c.label) →
    mkSts ts c.start ((cs.getLastD c).stop) (segText (c :: cs)) c.label =
    (runsAux c cs ts).map segOfRun := by
  intro ts
  induction ts generalizing c with
  | nil =>
    intro cs hcs
    rw [runsAux, mkSts, List.map_singleton, segOfRun_cons]
  | cons t ts ih =>
    intro cs hcs
    rw [runsAux, mkSts]
    by_cases heq : t.label = c.label
    · rw [if_pos heq, if_pos heq]
      have h1 := ih c (cs ++ [t]) (by
        intro u hu
        rcases List.mem_append.mp hu with h | h
        · exact hcs u h
        · rw [List.mem_singleton] at h; rw [h]; exact heq)
      rw [List.getLastD_concat, segText_concat] at h1
      exact h1
    · rw [if_neg heq, if_neg heq, List.map_cons]
      congr 1
      · rw [segOfRun_cons]
      · have h1 := ih t [] (by simp)
        rw [show ([] : List Tok).getLastD t = t from rfl] at h1
        rw [show segText [t] = t.text from rfl] at h1
        exact h1

/-- On a non-empty table, `make_sts_arr` returns exactly one segment per
maximal adjacent equal-label run. -/
lemma make_sts_eq (t : Tok) (ts : List Tok) :
    make_sts_arr (t :: ts) = some ((runsOf (t :: ts)).map segOfRun) := by
  rw [make_sts_arr, runsOf]
  have h := mkSts_eq t ts [] (by simp)
  rw [show ([] : List Tok).getLastD t = t from rfl] at h
  rw [show segText [t] = t.text from rfl] at h
  rw [h]

lemma sepStep_eq_concatStep (st : List Char) (t : Tok) (h : st ≠ []) :
    sepStep st t = concatStep st t := by
  have hl : st.length > 0 := List.length_pos.mpr h
  rw [sepStep, concatStep]
  cases hn : nsb (t.text.headD ' ') <;> simp [hl, hn]

lemma sepStep_ne_nil (st : List Char) (t : Tok) (h : st ≠ []) :
    sepStep st t ≠ [] := by
  rw [sepStep]
  split <;> simp [h]

lemma foldl_sep_eq_concat : ∀ (ts : List Tok) (st : List Char), st ≠ [] →
    ts.foldl sepStep st = ts.foldl concatStep st := by
  intro ts
  induction ts with
  | nil => intro st _; rfl
  | cons t ts ih =>
    intro st hst
    rw [List.foldl_cons, List.foldl_cons, sepStep_eq_concatStep st t hst]
    exact ih (concatStep st t) (concatStep_ne_nil st t hst)

/-- For non-empty token texts the segment text of a run has exactly the
length computed by the splitter's own concatenation. -/
lemma segText_length (r : List Tok) (hWF : ∀ u ∈ r, u.text ≠ []) :
    (segText r).length = cLen r := by
  cases r with
  | nil => rfl
  | cons t ts =>
    rw [segText, foldl_sep_eq_concat ts t.text (hWF t (by simp)),
      cLen, concatSt_cons]

/-! Properties of the sanitizer. -/

lemma sanitize_length (toks : List Tok) (m : Int) :
    (sanitize_toks_arr toks m).length = toks.length := by
  simp [sanitize_toks_arr]

lemma sanitize_label_isSome (toks : List Tok) (m : Int) :
    ∀ t ∈ sanitize_toks_arr toks m, t.label.isSome := by
  intro t ht
  obtain ⟨u, _, rfl⟩ := List.mem_map.mp ht
  cases hu : u.label with
  | none => simp [hu]
  | some s => by_cases hs : s = [] <;> simp [hu, hs]

lemma sanitize_text (toks : List Tok) (m : Int) (hm : 10 ≤ m)
    (hWF : ∀ t ∈ toks, t.text ≠ []) :
    ∀ t ∈ sanitize_toks_arr toks m, t.text ≠ [] ∧ (t.text.length : Int) ≤ m - 3 := by
  intro t ht
  obtain ⟨u, hu, rfl⟩ := List.mem_map.mp ht
  simp only
  split
  next hlong =>
    rw [pyTake, if_pos (by omega)]
    have hlen : (u.text.take (m - 3).toNat).length = (m - 3).toNat := by
      rw [List.length_take]
      omega
    constructor
    · intro hc
      rw [hc] at hlen
      simp at hlen
      omega
    · rw [hlen]; omega
  next hshort =>
    exact ⟨hWF u hu, by omega⟩

lemma lineage_map_text {l₁ l₂ : List Tok} (h : List.Forall₂ Lineage l₁ l₂) :
    l₂.map Tok.text = l₁.map Tok.text := by
  induction h with
  | nil => rfl
  | cons hR hrest ih => simp [ih, hR.2.2.1]

lemma forall₂_get? {R : Tok → Tok → Prop} :
    ∀ {l₁ l₂ : List Tok}, List.Forall₂ R l₁ l₂ →
    ∀ {i : Nat} {a u : Tok}, l₁.get? i = some a → l₂.get? i = some u → R a u := by
  intro l₁ l₂ h
  induction h with
  | nil => intro i a u ha _; simp at ha
  | cons hR hrest ih =>
    intro i a u ha hu
    cases i with
    | zero =>
      simp only [List.get?_cons_zero] at ha hu
      cases ha; cases hu; exact hR
    | succ j =>
      simp only [List.get?_cons_succ] at ha hu
      exact ih ha hu

/-- C1, amended to non-empty tables.  On any non-empty well-formed token
table the composed pipeline terminates, `make_sts_arr` emits one segment per
adjacent-label run, the runs concatenate back to the split table (no token
lost, duplicated or reordered), and the split table carries exactly the
sanitized texts in order. -/
theorem c1_partition_amended :
    ∀ (toks : List Tok) (max_chars : Int),
    (∀ t ∈ toks, t.text ≠ []) → 10 ≤ max_chars → toks ≠ [] →
    ∃ out,
      split_long_segs (toks.length + 2) (sanitize_toks_arr toks max_chars)
        max_chars 3 3 = .ok out ∧
      make_sts_arr out = some ((runsOf out).map segOfRun) ∧
      (runsOf out).flatten = out ∧
      out.map Tok.text = (sanitize_toks_arr toks max_chars).map Tok.text := by
  intro toks max_chars hWF hm hne
  have htext : ∀ t ∈ sanitize_toks_arr toks max_chars,
      t.text ≠ [] ∧ (t.text.length : Int) ≤ max_chars := by
    intro t ht
    obtain ⟨h1, h2⟩ := sanitize_text toks max_chars hm hWF t ht
    exact ⟨h1, by omega⟩
  obtain ⟨out, hout⟩ := split_term (toks.length + 2)
    (sanitize_toks_arr toks max_chars) max_chars 3 3 htext
    (sanitize_label_isSome toks max_chars) (by norm_num) hm
    (by rw [sanitize_length])
  have hlin := split_lineage _ _ max_chars 3 3 out hout
  have hlen : (sanitize_toks_arr toks max_chars).length = out.length := hlin.length_eq
  have houtne : out ≠ [] := by
    intro h
    rw [h, sanitize_length] at hlen
    simp at hlen
    exact hne hlen
  refine ⟨out, hout, ?_, runsOf_join out, lineage_map_text hlin⟩
  cases ho : out with
  | nil => exact absurd ho houtne
  | cons u us => exact make_sts_eq u us

/-- Witness table for several claims: a short two-token sentence. -/
def wtoks : List Tok :=
  [⟨0, 500, "ab".toList, some "s".toList⟩, ⟨500, 900, "cd".toList, some "s".toList⟩]

/-- Witness for C1's amended theorem at a concrete two-token table. -/
theorem c1_partition_witness :
    ∃ out,
      split_long_segs (wtoks.length + 2) (sanitize_toks_arr wtoks 10) 10 3 3 = .ok out ∧
      make_sts_arr out = some ((runsOf out).map segOfRun) ∧
      (runsOf out).flatten = out ∧
      out.map Tok.text = (sanitize_toks_arr wtoks 10).map Tok.text :=
  c1_partition_amended wtoks 10 (by decide) (by decide) (by decide)

/-- C1 counterexample: on the empty token table the sanitizer and splitter
both return the empty table, and `make_sts_arr` then fails (Python
`IndexError` at `toks_arr[0]`) instead of yielding segments. -/
theorem c1_empty_table_counterexample :
    sanitize_toks_arr [] 110 = [] ∧
    split_long_segs 2 [] 110 3 3 = .ok [] ∧
    make_sts_arr ([] : List Tok) = none :=
  ⟨rfl, by decide, rfl⟩

/-- C4: the assembler indexes the first row unconditionally, so the empty
token table is an error (`IndexError`), not an empty segment list. -/
theorem c4_empty_assembler_fails : make_sts_arr ([] : List Tok) = none := rfl

/-- Single token longer than the budget, the input of C3. -/
def c3_toks : List Tok := [⟨0, 1000, "abcdefghijk".toList, some "s".toList⟩]

/-- C3: on a one-token table whose text exceeds `max_chars`, the recursion
of `split_long_segs` never returns: whatever recursion depth is allowed, the
call again reaches the same one-token sentence, relabels nothing, and
recurses on an identical array (Python dies with `RecursionError`). -/
theorem c3_single_overlong_token_diverges :
    ∀ fuel, split_long_segs fuel c3_toks 10 3 3 = .error .fuel := by
  intro fuel
  induction fuel with
  | zero => rfl
  | succ n ih =>
    have key : ∀ x : Except SplitErr (List Tok),
        x = Except.error .fuel →
        (x >>= fun subSplit => processIds (fun ts => split_long_segs n ts 10 3 3) []
          (writeLabels "s".toList c3_toks subSplit) 10 3 3) = Except.error .fuel := by
      intro x hx
      rw [hx]
      rfl
    exact key _ ih

/-- C6: configuration boundaries of the splitter: a budget below one
returns an unmodified copy, a budget of one to nine is rejected with the
invalid-configuration assertion, and a budget of at least ten never raises
that assertion. -/
theorem c6_config_boundaries :
    ∀ (toks : List Tok) (max_chars : Int) (b d : Nat),
    (max_chars < 1 → ∀ fuel, split_long_segs (fuel + 1) toks max_chars b d = .ok toks) ∧
    (1 ≤ max_chars → max_chars ≤ 9 → ∀ fuel,
      split_long_segs (fuel + 1) toks max_chars b d = .error .maxChars) ∧
    (10 ≤ max_chars → ∀ fuel,
      split_long_segs fuel toks max_chars b d ≠ .error .maxChars) := by
  intro toks max_chars b d
  refine ⟨?_, ?_, ?_⟩
  · intro h fuel
    rw [split_long_segs, if_pos h]
  · intro h1 h9 fuel
    rw [split_long_segs, if_neg (by omega), if_pos (by omega)]
  · intro hm fuel
    exact split_ne_maxChars max_chars hm fuel toks b d

/-- Witness for C6 at concrete budgets 0, 5 and 10. -/
theorem c6_config_boundaries_witness :
    split_long_segs 1 wtoks 0 3 3 = .ok wtoks ∧
    split_long_segs 1 wtoks 5 3 3 = .error .maxChars ∧
    split_long_segs 1 wtoks 10 3 3 ≠ .error .maxChars :=
  ⟨(c6_config_boundaries wtoks 0 3 3).1 (by decide) 0,
   (c6_config_boundaries wtoks 5 3 3).2.1 (by decide) (by decide) 0,
   (c6_config_boundaries wtoks 10 3 3).2.2 (by decide) 1⟩

/-- C7: on a compliant table — every token labelled, every label's gathered
sentence within the budget — the splitter returns the table unchanged. -/
theorem c7_idempotent_on_compliant :
    ∀ (toks : List Tok) (max_chars : Int) (b d : Nat),
    (∀ t ∈ toks, t.label.isSome) →
    (∀ s : List Char, (cLen (toks.filter (fun t => t.label = some s)) : Int) ≤ max_chars) →
    10 ≤ max_chars →
    ∀ fuel, split_long_segs (fuel + 1) toks max_chars b d = .ok toks := by
  intro toks max_chars b d hlab hfit hm fuel
  rw [split_long_segs, if_neg (by omega), if_neg (by omega)]
  obtain ⟨ids, hids⟩ := buildStIdsGo_ok toks [] hlab
  rw [except_bind_ok]
  exact ⟨ids, hids, processIds_skip_all _ ids toks max_chars b d (fun id _ => hfit id)⟩

/-- Witness for C7 at a concrete compliant table. -/
theorem c7_idempotent_witness : split_long_segs 2 wtoks 10 3 3 = .ok wtoks := by
  apply c7_idempotent_on_compliant wtoks 10 3 3 (by decide) ?_ (by decide) 1
  intro s
  by_cases h : s = "s".toList
  · subst h; decide
  · rw [filter_other_eq_nil wtoks ("s".toList) s (by decide) (fun hc => h hc.symm)]
    decide

/-- C10: any normal return of the splitter keeps each row's start, end and
text, and only extends its label by zero or more copies of `"_x"`. -/
theorem c10_label_lineage :
    ∀ (fuel : Nat) (toks : List Tok) (max_chars : Int) (b d : Nat) (out : List Tok),
    (∀ t ∈ toks, t.label.isSome) → 10 ≤ max_chars →
    split_long_segs fuel toks max_chars b d = .ok out →
    out.length = toks.length ∧
    ∀ i t u, toks.get? i = some t → out.get? i = some u →
      u.start = t.start ∧ u.stop = t.stop ∧ u.text = t.text ∧
      ∃ s k, t.label = some s ∧ u.label = some (s ++ xRep k) := by
  intro fuel toks max_chars b d out hlab hm hok
  have hlin := split_lineage fuel toks max_chars b d out hok
  refine ⟨hlin.length_eq.symm, ?_⟩
  intro i t u ht hu
  obtain ⟨ha, hb, hc, k, hk⟩ := forall₂_get? hlin ht hu
  obtain ⟨s, hs⟩ := Option.isSome_iff_exists.mp (hlab t (List.get?_mem ht))
  refine ⟨ha, hb, hc, s, k, hs, ?_⟩
  rw [hk, hs]
  rfl

/-- Witness for C10 at a concrete table that the splitter leaves intact. -/
theorem c10_label_lineage_witness :
    wtoks.length = wtoks.length ∧
    ∀ i t u, wtoks.get? i = some t → wtoks.get? i = some u →
      u.start = t.start ∧ u.stop = t.stop ∧ u.text = t.text ∧
      ∃ s k, t.label = some s ∧ u.label = some (s ++ xRep k) :=
  c10_label_lineage 2 wtoks 10 3 3 wtoks (by decide) (by decide)
    c7_idempotent_witness

/-! Machinery for the length bound (C2): how `writeLabels` transforms each
label's gathered group, and arithmetic of the minted `"_x"` labels. -/

/-- Token agreement up to times: equal text and label.  The sentence length
of a filtered group only depends on these. -/
def TL (a b : Tok) : Prop := a.text = b.text ∧ a.label = b.label

lemma concatStep_text_congr (st : List Char) {a b : Tok} (h : a.text = b.text) :
    concatStep st a = concatStep st b := by
  unfold concatStep
  rw [h]

lemma foldl_concat_congr {l₁ l₂ : List Tok}
    (h : List.Forall₂ (fun a b => a.text = b.text) l₁ l₂) :
    ∀ st, l₁.foldl concatStep st = l₂.foldl concatStep st := by
  induction h with
  | nil => intro st; rfl
  | cons hR hrest ih =>
    intro st
    simp only [List.foldl_cons]
    rw [concatStep_text_congr st hR]
    exact ih _

lemma cLen_congr {l₁ l₂ : List Tok} (h : List.Forall₂ TL l₁ l₂) :
    cLen l₁ = cLen l₂ := by
  have h' : List.Forall₂ (fun a b => a.text = b.text) l₁ l₂ := by
    induction h with
    | nil => exact List.Forall₂.nil
    | cons hR hrest ih => exact List.Forall₂.cons hR.1 ih
  rw [cLen, cLen, concatSt, concatSt, foldl_concat_congr h' []]

lemma forall₂_lineage_texteq {l₁ l₂ : List Tok}
    (h : List.Forall₂ Lineage l₁ l₂) :
    List.Forall₂ (fun a b => a.text = b.text) l₁ l₂ := by
  induction h with
  | nil => exact List.Forall₂.nil
  | cons hR hrest ih => exact List.Forall₂.cons hR.2.2.1.symm ih

lemma xRep_length (k : Nat) : (xRep k).length = 2 * k := by
  induction k with
  | zero => rfl
  | succ k ih => simp [xRep, xSuf, ih]; omega

lemma ne_xRep_extension (g : List Char) (k : Nat) :
    g ≠ g ++ xSuf ++ xRep k := by
  intro h
  have := congrArg List.length h
  simp [xSuf, xRep_length] at this

/-- Cancellation for minted labels: two decompositions of one label along
`"_x"` repetitions are ordered by extension. -/
lemma xRep_cancel {id₁ id₂ : List Char} {a c : Nat}
    (h : id₁ ++ xRep a = id₂ ++ xRep c) :
    (a ≤ c ∧ id₁ = id₂ ++ xRep (c - a)) ∨ (c ≤ a ∧ id₂ = id₁ ++ xRep (a - c)) := by
  rcases Nat.le_total a c with hle | hle
  · left
    refine ⟨hle, ?_⟩
    have h2 : id₂ ++ xRep c = (id₂ ++ xRep (c - a)) ++ xRep a := by
      rw [List.append_assoc, ← xRep_add]
      congr 2
      omega
    rw [h2] at h
    exact List.append_cancel_right h
  · right
    refine ⟨hle, ?_⟩
    have h2 : id₁ ++ xRep a = (id₁ ++ xRep (a - c)) ++ xRep c := by
      rw [List.append_assoc, ← xRep_add]
      congr 2
      omega
    rw [h2] at h
    exact (List.append_cancel_right h.symm)

/-- `writeLabels` distributes over a first chunk that carries none of the
rewritten label. -/
lemma writeLabels_append_skip (id : List Char) :
    ∀ (pre post news : List Tok), (∀ t ∈ pre, t.label ≠ some id) →
    writeLabels id (pre ++ post) news = pre ++ writeLabels id post news := by
  intro pre
  induction pre with
  | nil => intro post news _; rfl
  | cons t ts ih =>
    intro post news hpre
    rw [List.cons_append]
    simp only [writeLabels, if_neg (hpre t (by simp))]
    rw [List.cons_append, ih post news (fun u hu => hpre u (by simp [hu]))]

/-- Labels present in a rewritten table come from the old table or from the
label source. -/
lemma writeLabels_label_mem (id : List Char) :
    ∀ (toks news : List Tok), ∀ u ∈ writeLabels id toks news,
    (∃ t ∈ toks, u.label = t.label) ∨ (∃ n ∈ news, u.label = n.label) := by
  intro toks
  induction toks with
  | nil => intro news u hu; cases hu
  | cons t ts ih =>
    intro news u hu
    simp only [writeLabels] at hu
    split at hu
    · cases news with
      | nil =>
        rcases List.mem_cons.mp hu with h | h
        · exact Or.inl ⟨t, by simp, by rw [h]⟩
        · rcases ih [] u h with ⟨t', ht', h'⟩ | ⟨n, hn, h'⟩
          · exact Or.inl ⟨t', by simp [ht'], h'⟩
          · cases hn
      | cons n ns =>
        rcases List.mem_cons.mp hu with h | h
        · exact Or.inr ⟨n, by simp, by rw [h]⟩
        · rcases ih ns u h with ⟨t', ht', h'⟩ | ⟨n', hn', h'⟩
          · exact Or.inl ⟨t', by simp [ht'], h'⟩
          · exact Or.inr ⟨n', by simp [hn'], h'⟩
    · rcases List.mem_cons.mp hu with h | h
      · exact Or.inl ⟨t, by simp, by rw [h]⟩
      · rcases ih news u h with ⟨t', ht', h'⟩ | ⟨n', hn', h'⟩
        · exact Or.inl ⟨t', by simp [ht'], h'⟩
        · exact Or.inr ⟨n', by simp [hn'], h'⟩

/-- Rewriting label `id` does not change the gathered group of a label that
is neither `id` nor among the new labels. -/
lemma writeLabels_filter_other (id ℓ : List Char) (hℓ : ℓ ≠ id) :
    ∀ (toks news : List Tok), (∀ n ∈ news, n.label ≠ some ℓ) →
    (writeLabels id toks news).filter (fun t => t.label = some ℓ) =
      toks.filter (fun t => t.label = some ℓ) := by
  intro toks
  induction toks with
  | nil => intro news _; rfl
  | cons t ts ih =>
    intro news hnews
    simp only [writeLabels]
    split
    next ht =>
      cases news with
      | nil =>
        rw [List.filter_cons, List.filter_cons]
        rw [ih [] (by simp)]
      | cons n ns =>
        rw [List.filter_cons, List.filter_cons]
        have h1 : (decide (n.label = some ℓ)) = false := by
          simp [hnews n (by simp)]
        have h2 : (decide (t.label = some ℓ)) = false := by
          simp [ht, hℓ.symm]
        simp only [h1, h2]
        rw [ih ns (fun m hm => hnews m (by simp [hm]))]
        simp
    next ht =>
      rw [List.filter_cons, List.filter_cons]
      rw [ih news hnews]

/-- Rewriting label `id` makes the gathered group of any `"_x"`-extension
`ℓ` of `id` agree (texts and labels) with `ℓ`'s group among the new rows,
provided no old row already carried a proper extension of `id`. -/
lemma writeLabels_filter_family (id ℓ : List Char) (hfam : ∃ k, ℓ = id ++ xRep k) :
    ∀ (toks news : List Tok),
    (∀ t ∈ toks, ∀ k : Nat, t.label ≠ some (id ++ xRep (k + 1))) →
    List.Forall₂ (fun a b => a.text = b.text)
      (toks.filter (fun t => t.label = some id)) news →
    List.Forall₂ TL
      ((writeLabels id toks news).filter (fun t => t.label = some ℓ))
      (news.filter (fun t => t.label = some ℓ)) := by
  obtain ⟨k0, hk0⟩ := hfam
  intro toks
  induction toks with
  | nil =>
    intro news _ h
    cases h
    exact List.Forall₂.nil
  | cons t ts ih =>
    intro news hold h
    by_cases ht : t.label = some id
    · rw [List.filter_cons_of_pos (by simpa using ht)] at h
      cases h with
      | cons hR hrest =>
        simp only [writeLabels, if_pos ht]
        rename_i n ns
        rw [List.filter_cons, List.filter_cons]
        by_cases hd : n.label = some ℓ
        · have hd1 : (decide (n.label = some ℓ)) = true := by simp [hd]
          simp only [hd1]
          exact List.Forall₂.cons ⟨hR, rfl⟩
            (ih ns (fun u hu k => hold u (by simp [hu]) k) hrest)
        · have hd1 : (decide (n.label = some ℓ)) = false := by simp [hd]
          simp only [hd1]
          exact ih ns (fun u hu k => hold u (by simp [hu]) k) hrest
    · rw [List.filter_cons_of_neg (by simpa using ht)] at h
      simp only [writeLabels, if_neg ht]
      rw [List.filter_cons]
      have hskip : (decide (t.label = some ℓ)) = false := by
        simp only [decide_eq_false_iff_not]
        cases k0 with
        | zero =>
          rw [hk0]
          simpa [xRep] using ht
        | succ k =>
          rw [hk0]
          exact hold t (by simp) k
      simp only [hskip]
      exact ih news (fun u hu k => hold u (by simp [hu]) k) h

lemma self_ne_xRep_succ (s : List Char) (k : Nat) : s ≠ s ++ xRep (k + 1) := by
  intro h
  have := congrArg List.length h
  simp [xRep_length] at this

lemma ext_ne_base (g : List Char) (k : Nat) : (g ++ xSuf) ++ xRep k ≠ g := by
  intro h
  have := congrArg List.length h
  simp [xSuf, xRep_length] at this

lemma lineage_labels_family {gx : List Char} {src out : List Tok}
    (hlin : List.Forall₂ Lineage src out)
    (hsrc : ∀ t ∈ src, t.label = some gx ∨ t.label = some (gx ++ xSuf)) :
    ∀ u ∈ out, ∃ k, u.label = some (gx ++ xRep k) := by
  intro u hu
  obtain ⟨t, ht, hL⟩ := forall₂_mem hlin hu
  obtain ⟨-, -, -, k, hk⟩ := hL
  rcases hsrc t ht with h | h
  · exact ⟨k, by rw [hk, h]; rfl⟩
  · refine ⟨k + 1, ?_⟩
    rw [hk, h]
    simp only [Option.map_some']
    congr 1
    rw [List.append_assoc, xSuf_append_xRep]

/-- Length bound on the two-label shape: when `split_long_segs` returns
normally on a table `A ++ B` whose first group `A` already fits the budget,
every label's gathered group in the output fits the budget. -/
lemma split_bound_AB :
    ∀ (fuel : Nat) (A B : List Tok) (g : List Char) (max_chars : Int) (b d : Nat)
      (out : List Tok),
    (∀ t ∈ A, t.label = some g) → (∀ t ∈ B, t.label = some (g ++ xSuf)) →
    (∀ t ∈ A ++ B, t.text ≠ [] ∧ (t.text.length : Int) ≤ max_chars) →
    A ≠ [] → (cLen A : Int) ≤ max_chars → 1 ≤ d → 10 ≤ max_chars →
    split_long_segs fuel (A ++ B) max_chars b d = .ok out →
    ∀ ℓ, (cLen (out.filter (fun t => t.label = some ℓ)) : Int) ≤ max_chars := by
  intro fuel
  induction fuel with
  | zero =>
    intro A B g mc b d out _ _ _ _ _ _ _ hok
    exact absurd hok (by simp [split_long_segs])
  | succ fuel ih =>
    intro A B g mc b d out hA hB htext hAne hAfit hd hm hok
    rw [split_long_segs, if_neg (by omega), if_neg (by omega),
      buildStIds_AB A B g (g ++ xSuf) hA hB hAne (ne_append_xSuf g)] at hok
    have hAg : ∀ t ∈ A, t.label ≠ some (g ++ xSuf) := by
      intro t ht hc
      rw [hA t ht] at hc
      exact ne_append_xSuf g (Option.some.inj hc)
    have hBg : ∀ t ∈ B, t.label ≠ some g := by
      intro t ht hc
      rw [hB t ht] at hc
      exact ne_append_xSuf g (Option.some.inj hc).symm
    have hfiltA : (A ++ B).filter (fun t => t.label = some g) = A := by
      rw [List.filter_append, filter_all_eq A g hA,
        filter_other_eq_nil B (g ++ xSuf) g hB (Ne.symm (ne_append_xSuf g)),
        List.append_nil]
    have hfiltB : (A ++ B).filter (fun t => t.label = some (g ++ xSuf)) = B := by
      rw [List.filter_append, filter_all_eq B (g ++ xSuf) hB,
        filter_other_eq_nil A g (g ++ xSuf) hA (ne_append_xSuf g),
        List.nil_append]
    by_cases hBc : B = []
    · rw [if_pos hBc, except_bind_ok] at hok
      obtain ⟨ids, hids, h⟩ := hok
      cases hids
      rw [processIds, if_neg (by rw [hfiltA]; push_neg; exact hAfit), processIds] at h
      cases h
      intro ℓ
      by_cases hℓ : ℓ = g
      · subst hℓ
        rw [hfiltA]
        exact hAfit
      · rw [List.filter_append,
          filter_other_eq_nil A g ℓ hA (fun hc => hℓ hc.symm), hBc]
        simp [cLen_nil]
        omega
    · rw [if_neg hBc, except_bind_ok] at hok
      obtain ⟨ids, hids, h⟩ := hok
      cases hids
      rw [processIds, if_neg (by rw [hfiltA]; push_neg; exact hAfit),
        processIds, hfiltB] at h
      split at h
      next hover =>
        rw [except_bind_ok] at h
        obtain ⟨subSplit, hsubok, h2⟩ := h
        rw [processIds] at h2
        cases h2
        have htextB : ∀ t ∈ B, t.text ≠ [] ∧ (t.text.length : Int) ≤ mc :=
          fun t ht => htext t (by simp [ht])
        have h2B : 2 ≤ B.length :=
          two_le_length_of_over B mc (by omega) (fun t ht => (htextB t ht).2) hover
        set l2 := backtrackStep B (scanLasti B mc d) b with hl2
        have hlt : l2 + 1 < B.length := split_point_lt B mc d b hd h2B
        have hbound := ih (B.take (l2 + 1)) ((B.drop (l2 + 1)).map xmap)
          (g ++ xSuf) mc b d subSplit
          (fun t ht => hB t (List.take_subset _ _ ht))
          (by
            intro t ht
            obtain ⟨u, hu, rfl⟩ := List.mem_map.mp ht
            exact xmap_label u (g ++ xSuf) (hB u (List.drop_subset _ _ hu)))
          (@relabel_mem_text B l2
            (fun tx => tx ≠ [] ∧ (tx.length : Int) ≤ mc) htextB)
          (by
            cases hc : B with
            | nil => exact absurd hc hBc
            | cons x xs => simp [List.take_succ_cons])
          (kept_bound B mc d b (fun t ht => (htextB t ht).2) hBc)
          hd hm hsubok
        have hlin : List.Forall₂ Lineage B subSplit :=
          forall₂_lineage_trans (relabelAfter_lineage B l2)
            (split_lineage fuel (relabelAfter B l2) mc b d subSplit hsubok)
        have hfam : ∀ u ∈ subSplit, ∃ k, u.label = some ((g ++ xSuf) ++ xRep k) := by
          apply lineage_labels_family
            (forall₂_lineage_trans (forall₂_lineage_refl B) hlin)
          intro t ht
          exact Or.inl (hB t ht)
        have hout : writeLabels (g ++ xSuf) (A ++ B) subSplit =
            A ++ writeLabels (g ++ xSuf) B subSplit :=
          writeLabels_append_skip (g ++ xSuf) A B subSplit hAg
        rw [hout]
        intro ℓ
        rw [List.filter_append]
        by_cases hℓg : ℓ = g
        · subst hℓg
          rw [filter_all_eq A ℓ hA]
          rw [writeLabels_filter_other (ℓ ++ xSuf) ℓ (ne_append_xSuf ℓ) B subSplit
            (by
              intro n hn hc
              obtain ⟨k, hk⟩ := hfam n hn
              rw [hk] at hc
              exact ext_ne_base ℓ k (Option.some.inj hc))]
          rw [filter_other_eq_nil B (ℓ ++ xSuf) ℓ hB (Ne.symm (ne_append_xSuf ℓ))]
          rw [List.append_nil]
          exact hAfit
        · rw [filter_other_eq_nil A g ℓ hA (fun hc => hℓg hc.symm), List.nil_append]
          by_cases hfam2 : ∃ k, ℓ = (g ++ xSuf) ++ xRep k
          · have hTL := writeLabels_filter_family (g ++ xSuf) ℓ hfam2 B subSplit
              (by
                intro t ht k hc
                rw [hB t ht] at hc
                exact self_ne_xRep_succ (g ++ xSuf) k (Option.some.inj hc))
              (by
                rw [filter_all_eq B (g ++ xSuf) hB]
                exact forall₂_lineage_texteq hlin)
            rw [cLen_congr hTL]
            exact hbound ℓ
          · rw [writeLabels_filter_other (g ++ xSuf) ℓ
              (by intro hc; exact hfam2 ⟨0, by rw [hc]; simp [xRep]⟩) B subSplit
              (by
                intro n hn hc
                obtain ⟨k, hk⟩ := hfam n hn
                rw [hk] at hc
                exact hfam2 ⟨k, (Option.some.inj hc).symm⟩)]
            rw [filter_other_eq_nil B (g ++ xSuf) ℓ hB
              (fun hc => hfam2 ⟨0, by rw [← hc]; simp [xRep]⟩)]
            simp [cLen_nil]
            omega
      next hnotover =>
        rw [processIds] at h
        cases h
        intro ℓ
        rw [List.filter_append]
        by_cases hℓg : ℓ = g
        · subst hℓg
          rw [filter_all_eq A ℓ hA,
            filter_other_eq_nil B (ℓ ++ xSuf) ℓ hB (Ne.symm (ne_append_xSuf ℓ)),
            List.append_nil]
          exact hAfit
        · rw [filter_other_eq_nil A g ℓ hA (fun hc => hℓg hc.symm), List.nil_append]
          by_cases hℓgx : ℓ = g ++ xSuf
          · subst hℓgx
            rw [filter_all_eq B _ hB]
            omega
          · rw [filter_other_eq_nil B (g ++ xSuf) ℓ hB (Ne.symm hℓgx)]
            simp [cLen_nil]
            omega

/-- Length bound for the id loop: if every label not pending is already
within budget, no pending id is an `"_x"`-extension of another, and no label
in the table extends a pending id, then after a normal pass every label's
gathered group fits the budget. -/
lemma processIds_bound (fuel : Nat) (max_chars : Int) (b d : Nat)
    (hd : 1 ≤ d) (hm : 10 ≤ max_chars) :
    ∀ (ids : List (List Char)) (toks : List Tok) (out : List Tok),
    (∀ t ∈ toks, t.text ≠ [] ∧ (t.text.length : Int) ≤ max_chars) →
    (∀ ℓ, ℓ ∉ ids → (cLen (toks.filter (fun t => t.label = some ℓ)) : Int) ≤ max_chars) →
    (∀ t ∈ toks, ∀ id ∈ ids, ∀ k : Nat, t.label ≠ some (id ++ xRep (k + 1))) →
    (∀ id₁ ∈ ids, ∀ id₂ ∈ ids, ∀ k : Nat, id₁ ≠ id₂ ++ xRep (k + 1)) →
    ids.Nodup →
    processIds (fun ts => split_long_segs fuel ts max_chars b d)
      ids toks max_chars b d = .ok out →
    ∀ ℓ, (cLen (out.filter (fun t => t.label = some ℓ)) : Int) ≤ max_chars := by
  intro ids
  induction ids with
  | nil =>
    intro toks out _ h3 _ _ _ hok ℓ
    rw [processIds] at hok
    cases hok
    exact h3 ℓ (by simp)
  | cons id rest ih =>
    intro toks out htext h3 h4 h5 hnd hok
    rw [processIds] at hok
    split at hok
    next hover =>
      rw [except_bind_ok] at hok
      obtain ⟨subSplit, hsubok, hrest⟩ := hok
      set sub := toks.filter (fun t => t.label = some id) with hsubdef
      have hsubtext : ∀ t ∈ sub, t.text ≠ [] ∧ (t.text.length : Int) ≤ max_chars :=
        fun t ht => htext t (List.mem_of_mem_filter ht)
      have h2 : 2 ≤ sub.length :=
        two_le_length_of_over sub max_chars (by omega)
          (fun t ht => (hsubtext t ht).2) hover
      have hsubne : sub ≠ [] := by
        intro h; rw [h] at h2; simp at h2
      set l2 := backtrackStep sub (scanLasti sub max_chars d) b with hl2
      have hboundsub := split_bound_AB fuel (sub.take (l2 + 1))
        ((sub.drop (l2 + 1)).map xmap) id max_chars b d subSplit
        (fun t ht => mem_filter_label (List.take_subset _ _ ht))
        (by
          intro t ht
          obtain ⟨u, hu, rfl⟩ := List.mem_map.mp ht
          exact xmap_label u id (mem_filter_label (List.drop_subset _ _ hu)))
        (@relabel_mem_text sub l2
          (fun tx => tx ≠ [] ∧ (tx.length : Int) ≤ max_chars) hsubtext)
        (by
          cases hc : sub with
          | nil => exact absurd hc hsubne
          | cons x xs => simp [List.take_succ_cons])
        (kept_bound sub max_chars d b (fun t ht => (hsubtext t ht).2) hsubne)
        hd hm hsubok
      have hlinsub : List.Forall₂ Lineage sub subSplit :=
        forall₂_lineage_trans (relabelAfter_lineage sub l2)
          (split_lineage fuel (relabelAfter sub l2) max_chars b d subSplit hsubok)
      have hfam : ∀ u ∈ subSplit, ∃ k, u.label = some (id ++ xRep k) := by
        apply lineage_labels_family
          (split_lineage fuel (relabelAfter sub l2) max_chars b d subSplit hsubok)
        intro t ht
        rcases List.mem_append.mp ht with h | h
        · exact Or.inl (mem_filter_label (List.take_subset _ _ h))
        · obtain ⟨u, hu, rfl⟩ := List.mem_map.mp h
          exact Or.inr (xmap_label u id (mem_filter_label (List.drop_subset _ _ hu)))
      have hlintoks : List.Forall₂ Lineage toks (writeLabels id toks subSplit) :=
        writeLabels_lineage id toks subSplit hlinsub
      apply ih (writeLabels id toks subSplit) out
        (@lineage_text_pred toks (writeLabels id toks subSplit)
          (fun tx => tx ≠ [] ∧ (tx.length : Int) ≤ max_chars) hlintoks htext)
        ?_ ?_ ?_ (List.Nodup.of_cons hnd) hrest
      · -- groups of labels no longer pending are within budget
        intro ℓ hℓrest
        by_cases hfam2 : ∃ k, ℓ = id ++ xRep k
        · have hTL := writeLabels_filter_family id ℓ hfam2 toks subSplit
            (fun t ht k => h4 t ht id (by simp) k)
            (forall₂_lineage_texteq hlinsub)
          rw [cLen_congr hTL]
          exact hboundsub ℓ
        · have hℓid : ℓ ≠ id := fun hc => hfam2 ⟨0, by rw [hc]; simp [xRep]⟩
          rw [writeLabels_filter_other id ℓ hℓid toks subSplit
            (by
              intro n hn hc
              obtain ⟨k, hk⟩ := hfam n hn
              rw [hk] at hc
              exact hfam2 ⟨k, (Option.some.inj hc).symm⟩)]
          exact h3 ℓ (by
            intro hc
            rcases List.mem_cons.mp hc with h | h
            · exact hℓid h
            · exact hℓrest h)
      · -- no label of the new table extends a pending id
        intro u hu id₂ hid₂ k hc
        rcases writeLabels_label_mem id toks subSplit u hu with ⟨t, ht, heq⟩ | ⟨n, hn, heq⟩
        · rw [heq] at hc
          exact h4 t ht id₂ (by simp [hid₂]) k hc
        · obtain ⟨k0, hk0⟩ := hfam n hn
          rw [heq, hk0] at hc
          have hceq : id ++ xRep k0 = id₂ ++ xRep (k + 1) := Option.some.inj hc
          rcases xRep_cancel hceq with ⟨hle, heq2⟩ | ⟨hle, heq2⟩
          · rcases Nat.eq_or_lt_of_le hle with heq3 | hlt3
            · rw [← heq3, Nat.sub_self] at heq2
              rw [show xRep 0 = [] from rfl, List.append_nil] at heq2
              rw [← heq2] at hid₂
              exact (List.nodup_cons.mp hnd).1 hid₂
            · have hpos : k + 1 - k0 = (k - k0) + 1 := by omega
              rw [hpos] at heq2
              exact h5 id (by simp) id₂ (by simp [hid₂]) (k - k0) heq2
          · rcases Nat.eq_or_lt_of_le hle with heq3 | hlt3
            · rw [heq3, Nat.sub_self] at heq2
              rw [show xRep 0 = [] from rfl, List.append_nil] at heq2
              rw [heq2] at hid₂
              exact (List.nodup_cons.mp hnd).1 hid₂
            · have hpos : k0 - (k + 1) = (k0 - k - 2) + 1 := by omega
              rw [hpos] at heq2
              exact h5 id₂ (by simp [hid₂]) id (by simp) (k0 - k - 2) heq2
      · -- pending ids still pairwise extension-free
        intro id₁ h1 id₂ h2' k
        exact h5 id₁ (by simp [h1]) id₂ (by simp [h2']) k
    next hnotover =>
      refine ih toks out htext ?_ ?_ ?_ (List.Nodup.of_cons hnd) hok
      · intro ℓ hℓ
        by_cases hc : ℓ = id
        · subst hc; push_neg at hnotover; exact hnotover
        · exact h3 ℓ (by
            intro hin
            rcases List.mem_cons.mp hin with h | h
            · exact hc h
            · exact hℓ h)
      · intro t ht id₂ hid₂ k
        exact h4 t ht id₂ (by simp [hid₂]) k
      · intro id₁ h1 id₂ h2' k
        exact h5 id₁ (by simp [h1]) id₂ (by simp [h2']) k

/-- Collision-freedom of a table's labels: no label is another label
extended by one or more copies of `"_x"`.  Without this, a label minted by a
split can merge with a pre-existing label (see the C2 counterexample). -/
def CollisionFree (toks : List Tok) : Prop :=
  ∀ t ∈ toks, ∀ u ∈ toks, ∀ s : List Char, ∀ k : Nat,
    u.label = some s → t.label ≠ some (s ++ xRep (k + 1))

/-- Length bound for a full run of the splitter on a collision-free
table. -/
lemma split_bound (fuel : Nat) (toks : List Tok) (max_chars : Int) (b d : Nat)
    (out : List Tok)
    (htext : ∀ t ∈ toks, t.text ≠ [] ∧ (t.text.length : Int) ≤ max_chars)
    (hCF : CollisionFree toks)
    (hd : 1 ≤ d) (hm : 10 ≤ max_chars)
    (hok : split_long_segs fuel toks max_chars b d = .ok out) :
    ∀ ℓ, (cLen (out.filter (fun t => t.label = some ℓ)) : Int) ≤ max_chars := by
  cases fuel with
  | zero => exact absurd hok (by simp [split_long_segs])
  | succ f =>
    rw [split_long_segs, if_neg (by omega), if_neg (by omega), except_bind_ok] at hok
    obtain ⟨ids, hids, h⟩ := hok
    obtain ⟨hnd, hmem⟩ := buildStIds_spec toks ids hids
    apply processIds_bound f max_chars b d hd hm ids toks out htext ?_ ?_ ?_ hnd h
    · intro ℓ hℓ
      rw [List.filter_eq_nil.mpr (by
        intro t ht
        simp only [decide_eq_true_eq]
        intro hc
        exact hℓ ((hmem ℓ).mpr ⟨t, ht, hc⟩))]
      simp [cLen_nil]
      omega
    · intro t ht id hid k
      obtain ⟨u, hu, hul⟩ := (hmem id).mp hid
      exact hCF t ht u hu id k hul
    · intro id₁ h1 id₂ h2 k hc
      obtain ⟨t₁, ht₁, hl₁⟩ := (hmem id₁).mp h1
      obtain ⟨t₂, ht₂, hl₂⟩ := (hmem id₂).mp h2
      exact hCF t₁ ht₁ t₂ ht₂ id₂ k hl₂ (by rw [hl₁, hc])

/-- C2, amended with collision-free labels.  After sanitizing and splitting
a collision-free table, every segment assembled by `make_sts_arr` that
consists of more than one token has text of length at most `max_chars`. -/
theorem c2_length_bound_amended :
    ∀ (toks : List Tok) (max_chars : Int),
    (∀ t ∈ toks, t.text ≠ []) →
    CollisionFree (sanitize_toks_arr toks max_chars) →
    10 ≤ max_chars →
    ∃ out,
      split_long_segs (toks.length + 2) (sanitize_toks_arr toks max_chars)
        max_chars 3 3 = .ok out ∧
      (∀ r ∈ runsOf out, 1 < r.length →
        ((segOfRun r).text.length : Int) ≤ max_chars) ∧
      (toks ≠ [] → make_sts_arr out = some ((runsOf out).map segOfRun)) := by
  intro toks max_chars hWF hCF hm
  have htext : ∀ t ∈ sanitize_toks_arr toks max_chars,
      t.text ≠ [] ∧ (t.text.length : Int) ≤ max_chars := by
    intro t ht
    obtain ⟨h1, h2⟩ := sanitize_text toks max_chars hm hWF t ht
    exact ⟨h1, by omega⟩
  obtain ⟨out, hout⟩ := split_term (toks.length + 2)
    (sanitize_toks_arr toks max_chars) max_chars 3 3 htext
    (sanitize_label_isSome toks max_chars) (by norm_num) hm
    (by rw [sanitize_length])
  have hbound := split_bound (toks.length + 2) (sanitize_toks_arr toks max_chars)
    max_chars 3 3 out htext hCF (by norm_num) hm hout
  have hlin := split_lineage (toks.length + 2) (sanitize_toks_arr toks max_chars)
    max_chars 3 3 out hout
  have houtWF : ∀ u ∈ out, u.text ≠ [] :=
    @lineage_text_pred _ out (fun tx => tx ≠ []) hlin (fun t ht => (htext t ht).1)
  have houtlab : ∀ u ∈ out, u.label.isSome :=
    lineage_label_isSome hlin (sanitize_label_isSome toks max_chars)
  refine ⟨out, hout, ?_, ?_⟩
  · intro r hr hlen
    obtain ⟨lab, hlaball⟩ := runsOf_labels out r hr
    have hrsub := runsOf_sublist out r hr
    cases hrc : r with
    | nil => exact absurd hrc (runsOf_ne_nil out r hr)
    | cons c cs =>
      have hc : c ∈ out := hrsub.mem (by rw [hrc]; simp)
      obtain ⟨s, hs⟩ := Option.isSome_iff_exists.mp (houtlab c hc)
      have hlabs : lab = some s := by
        rw [← hs, ← hlaball c (by rw [hrc]; simp)]
      have hfiltr : r.filter (fun t => t.label = some s) = r :=
        filter_all_eq r s (fun u hu => by rw [hlaball u hu, hlabs])
      have hsubf : r.Sublist (out.filter (fun t => t.label = some s)) := by
        rw [← hfiltr]
        exact hrsub.filter _
      have h2 : cLen r ≤ cLen (out.filter (fun t => t.label = some s)) :=
        cLen_le_of_sublist hsubf
          (fun t ht => houtWF t (List.mem_of_mem_filter ht))
      have h3 : (segOfRun r).text.length = cLen r := by
        rw [show (segOfRun r).text = segText r from rfl]
        exact segText_length r (fun u hu => houtWF u (hrsub.mem hu))
      rw [← hrc] at *
      rw [h3]
      calc (cLen r : Int) ≤ (cLen (out.filter (fun t => t.label = some s)) : Int) := by
            exact_mod_cast h2
      _ ≤ max_chars := hbound s
  · intro hne
    have hlen : (sanitize_toks_arr toks max_chars).length = out.length := hlin.length_eq
    have houtne : out ≠ [] := by
      intro h
      rw [h, sanitize_length] at hlen
      simp at hlen
      exact hne hlen
    cases ho : out with
    | nil => exact absurd ho houtne
    | cons u us => exact make_sts_eq u us

/-- Witness for C2's amended theorem at a concrete collision-free table. -/
theorem c2_length_bound_witness :
    ∃ out,
      split_long_segs (wtoks.length + 2) (sanitize_toks_arr wtoks 10) 10 3 3 = .ok out ∧
      (∀ r ∈ runsOf out, 1 < r.length → ((segOfRun r).text.length : Int) ≤ 10) ∧
      (wtoks ≠ [] → make_sts_arr out = some ((runsOf out).map segOfRun)) := by
  apply c2_length_bound_amended wtoks 10 (by decide) ?_ (by decide)
  intro t ht u hu s k hus hc
  have hsan : sanitize_toks_arr wtoks 10 = wtoks := by decide
  rw [hsan] at ht hu
  have hl : t.label = some ("s".toList) := by
    fin_cases ht <;> rfl
  have hlu : u.label = some ("s".toList) := by
    fin_cases hu <;> rfl
  rw [hlu] at hus
  have hs : s = "s".toList := (Option.some.inj hus).symm
  rw [hl, hs] at hc
  exact self_ne_xRep_succ ("s".toList) k (Option.some.inj hc)

/-- Input table for the C2 counterexample: the label `A_x` already exists
(discontinuously) and collides with the sub-label the splitter mints when it
splits the over-long sentence `A`. -/
def c2ce : List Tok :=
  [⟨0, 1, "aaa".toList, some "A_x".toList⟩,
   ⟨1, 2, "bbbbbbb".toList, some "A".toList⟩,
   ⟨2, 3, "ccccccc".toList, some "A".toList⟩,
   ⟨3, 4, "dddddd".toList, some "A_x".toList⟩]

/-- Table produced by the splitter on `c2ce`: the third token has been
relabelled to `A_x` and is now adjacent to the fourth. -/
def c2ceOut : List Tok :=
  [⟨0, 1, "aaa".toList, some "A_x".toList⟩,
   ⟨1, 2, "bbbbbbb".toList, some "A".toList⟩,
   ⟨2, 3, "ccccccc".toList, some "A_x".toList⟩,
   ⟨3, 4, "dddddd".toList, some "A_x".toList⟩]

/-- The offending two-token run of the assembled output. -/
def c2ceRun : List Tok :=
  [⟨2, 3, "ccccccc".toList, some "A_x".toList⟩,
   ⟨3, 4, "dddddd".toList, some "A_x".toList⟩]

/-- C2 counterexample: sanitizing (a no-op here) and splitting `c2ce` with
`max_chars = 10` yields a table whose assembly contains the two-token
segment `"ccccccc dddddd"` of length 14 > 10. -/
theorem c2_collision_counterexample :
    sanitize_toks_arr c2ce 10 = c2ce ∧
    split_long_segs (c2ce.length + 2) c2ce 10 3 3 = .ok c2ceOut ∧
    make_sts_arr c2ceOut =
      some [⟨0, 1, "aaa".toList⟩, ⟨1, 2, "bbbbbbb".toList⟩,
            ⟨2, 4, "ccccccc dddddd".toList⟩] ∧
    (runsOf c2ceOut).get? 2 = some c2ceRun ∧
    1 < c2ceRun.length ∧
    segOfRun c2ceRun = ⟨2, 4, "ccccccc dddddd".toList⟩ ∧
    10 < ((segOfRun c2ceRun).text.length : Int) := by
  refine ⟨by decide, by decide, by decide, by decide, by decide, by decide, by decide⟩

/-! Facts about the dictionary operations used by the extractors. -/

lemma dictFind?_dictSet_self (k : List Char) (v : α) :
    ∀ d : List (List Char × α), dictFind? k (dictSet k v d) = some v := by
  intro d
  induction d with
  | nil => simp [dictSet, dictFind?]
  | cons p rest ih =>
    obtain ⟨k', v'⟩ := p
    by_cases h : k' = k
    · simp [dictSet, dictFind?, h]
    · simp [dictSet, dictFind?, h, ih]

lemma dictFind?_dictSet_other (k k₀ : List Char) (v : α) (h : k ≠ k₀) :
    ∀ d : List (List Char × α), dictFind? k (dictSet k₀ v d) = dictFind? k d := by
  intro d
  induction d with
  | nil => simp [dictSet, dictFind?, Ne.symm h]
  | cons p rest ih =>
    obtain ⟨k', v'⟩ := p
    by_cases hk : k' = k₀
    · subst hk
      simp [dictSet, dictFind?, Ne.symm h]
    · by_cases hk2 : k' = k
      · simp [dictSet, dictFind?, hk, hk2, h]
      · simp [dictSet, dictFind?, hk, hk2, ih]

lemma dictFind?_mem (k : List Char) (v : α) :
    ∀ d : List (List Char × α), dictFind? k d = some v → (k, v) ∈ d := by
  intro d
  induction d with
  | nil => simp [dictFind?]
  | cons p rest ih =>
    obtain ⟨k', v'⟩ := p
    by_cases h : k' = k
    · subst h
      intro hf
      simp [dictFind?] at hf
      subst hf
      exact List.mem_cons_self _ _
    · intro hf
      simp only [dictFind?, if_neg h] at hf
      exact List.mem_cons_of_mem _ (ih hf)

/-! Tracing the `tos` dictionary through the phases of
`proc_asr.make_toks_arr`. -/

lemma buildTos_skip (k : List Char) :
    ∀ (anns : List TokenAnn) (d : List (List Char × TokInfo)),
      (∀ a ∈ anns, a.id ≠ k) →
      dictFind? k (anns.foldl (fun d a => dictSet a.id ⟨a.word, none, none⟩ d) d) =
        dictFind? k d := by
  intro anns
  induction anns with
  | nil => intro d _; rfl
  | cons a rest ih =>
    intro d h
    have h1 : a.id ≠ k := h a (List.mem_cons_self a rest)
    have h2 : ∀ a' ∈ rest, a'.id ≠ k := fun a' ha' => h a' (List.mem_cons_of_mem a ha')
    simp only [List.foldl_cons]
    rw [ih _ h2, dictFind?_dictSet_other k a.id _ (Ne.symm h1)]

lemma buildTos_find (k : List Char) :
    ∀ (anns : List TokenAnn) (d : List (List Char × TokInfo)),
      ((∃ a ∈ anns, a.id = k) ∨ ∃ w, dictFind? k d = some ⟨w, none, none⟩) →
      ∃ w, dictFind? k
          (anns.foldl (fun d a => dictSet a.id ⟨a.word, none, none⟩ d) d) =
        some ⟨w, none, none⟩ := by
  intro anns
  induction anns with
  | nil =>
    intro d h
    rcases h with ⟨a, ha, _⟩ | h
    · exact absurd ha (List.not_mem_nil a)
    · exact h
  | cons a rest ih =>
    intro d h
    simp only [List.foldl_cons]
    by_cases hid : a.id = k
    · subst hid
      exact ih _ (Or.inr ⟨a.word, dictFind?_dictSet_self a.id ⟨a.word, none, none⟩ d⟩)
    · rcases h with ⟨a', ha', hk⟩ | ⟨w, hw⟩
      · rcases List.mem_cons.mp ha' with rfl | ha'
        · exact absurd hk hid
        · exact ih _ (Or.inl ⟨a', ha', hk⟩)
      · refine ih _ (Or.inr ⟨w, ?_⟩)
        rw [dictFind?_dictSet_other k a.id _ (fun he => hid he.symm)]
        exact hw

lemma buildTos_find_nodup (k w : List Char) :
    ∀ (anns : List TokenAnn) (d : List (List Char × TokInfo)),
      (anns.map TokenAnn.id).Nodup →
      (∃ a ∈ anns, a.id = k ∧ a.word = w) →
      dictFind? k
          (anns.foldl (fun d a => dictSet a.id ⟨a.word, none, none⟩ d) d) =
        some ⟨w, none, none⟩ := by
  intro anns
  induction anns with
  | nil =>
    rintro d _ ⟨a, ha, _⟩
    exact absurd ha (List.not_mem_nil a)
  | cons a rest ih =>
    rintro d hnd ⟨a', ha', hk, hw⟩
    simp only [List.map_cons, List.nodup_cons] at hnd
    obtain ⟨hnotin, hnd'⟩ := hnd
    rcases List.mem_cons.mp ha' with rfl | hmem
    · subst hk hw
      have hrest : ∀ a'' ∈ rest, a''.id ≠ a'.id := by
        intro a'' ha'' he
        apply hnotin
        rw [← he]
        exact List.mem_map_of_mem _ ha''
      simp only [List.foldl_cons]
      rw [buildTos_skip _ rest _ hrest]
      exact dictFind?_dictSet_self _ _ _
    · simp only [List.foldl_cons]
      exact ih _ hnd' ⟨a', hmem, hk, hw⟩

lemma addAligns_find_no_target (tfs : List (List Char × (Int × Int))) (k : List Char) :
    ∀ (als : List AlignAnn) (d d' : List (List Char × TokInfo)),
      addAligns tfs als d = .ok d' →
      (∀ al ∈ als, al.target ≠ k) →
      dictFind? k d' = dictFind? k d := by
  intro als
  induction als with
  | nil =>
    intro d d' h _
    cases h
    rfl
  | cons al rest ih =>
    intro d d' h hk
    have hal : al.target ≠ k := hk al (List.mem_cons_self al rest)
    have hrest : ∀ al' ∈ rest, al'.target ≠ k :=
      fun al' h' => hk al' (List.mem_cons_of_mem al h')
    simp only [addAligns] at h
    split at h
    · split at h
      · rw [ih _ _ h hrest, dictFind?_dictSet_other k al.target _ (fun he => hal he.symm)]
      · cases h
    · exact ih _ _ h hrest

lemma addAligns_find_word_sid (tfs : List (List Char × (Int × Int))) (k : List Char) :
    ∀ (als : List AlignAnn) (d d' : List (List Char × TokInfo)),
      addAligns tfs als d = .ok d' →
      ∀ info, dictFind? k d = some info →
      ∃ info', dictFind? k d' = some info' ∧
        info'.word = info.word ∧ info'.sid = info.sid := by
  intro als
  induction als with
  | nil =>
    intro d d' h info hf
    cases h
    exact ⟨info, hf, rfl, rfl⟩
  | cons al rest ih =>
    intro d d' h info hf
    simp only [addAligns] at h
    split at h
    · rename_i info0 span heq0 heq1
      split at h
      · by_cases he : al.target = k
        · subst he
          rw [hf] at heq0
          cases heq0
          obtain ⟨info', hfind, hw, hs⟩ :=
            ih _ _ h _ (dictFind?_dictSet_self al.target _ d)
          exact ⟨info', hfind, hw, hs⟩
        · refine ih _ _ h info ?_
          rw [dictFind?_dictSet_other k al.target _ (fun hh => he hh.symm)]
          exact hf
      · cases h
    · exact ih _ _ h info hf

lemma addSentTargets_find_keep (sid k : List Char) :
    ∀ (tgs : List (List Char)) (d d' : List (List Char × TokInfo)),
      addSentTargets sid tgs d = .ok d' →
      ∀ info, dictFind? k d = some info →
      ∃ info', dictFind? k d' = some info' ∧
        info'.tspan = info.tspan ∧ info'.word = info.word := by
  intro tgs
  induction tgs with
  | nil =>
    intro d d' h info hf
    cases h
    exact ⟨info, hf, rfl, rfl⟩
  | cons tid rest ih =>
    intro d d' h info hf
    simp only [addSentTargets] at h
    split at h
    · cases h
    · rename_i info0 heq0
      split at h
      · by_cases he : tid = k
        · subst he
          rw [hf] at heq0
          cases heq0
          obtain ⟨info', hfind, ht, hw⟩ :=
            ih _ _ h _ (dictFind?_dictSet_self tid _ d)
          exact ⟨info', hfind, ht, hw⟩
        · refine ih _ _ h info ?_
          rw [dictFind?_dictSet_other k tid _ (fun hh => he hh.symm)]
          exact hf
      · cases h

lemma addSentTargets_skip (sid k : List Char) :
    ∀ (tgs : List (List Char)) (d d' : List (List Char × TokInfo)),
      addSentTargets sid tgs d = .ok d' →
      (∀ t ∈ tgs, t ≠ k) →
      dictFind? k d' = dictFind? k d := by
  intro tgs
  induction tgs with
  | nil =>
    intro d d' h _
    cases h
    rfl
  | cons tid rest ih =>
    intro d d' h hk
    have htid : tid ≠ k := hk tid (List.mem_cons_self tid rest)
    have hrest : ∀ t ∈ rest, t ≠ k := fun t h' => hk t (List.mem_cons_of_mem tid h')
    simp only [addSentTargets] at h
    split at h
    · cases h
    · split at h
      · rw [ih _ _ h hrest, dictFind?_dictSet_other k tid _ (fun he => htid he.symm)]
      · cases h

lemma addSents_find_keep (k : List Char) :
    ∀ (sts : List SentAnn) (d d' : List (List Char × TokInfo)),
      addSents sts d = .ok d' →
      ∀ info, dictFind? k d = some info →
      ∃ info', dictFind? k d' = some info' ∧
        info'.tspan = info.tspan ∧ info'.word = info.word := by
  intro sts
  induction sts with
  | nil =>
    intro d d' h info hf
    cases h
    exact ⟨info, hf, rfl, rfl⟩
  | cons st rest ih =>
    intro d d' h info hf
    rw [show addSents (st :: rest) d =
          addSentTargets st.id st.targets d >>= addSents rest from rfl,
        except_bind_ok] at h
    obtain ⟨d1, h1, h2⟩ := h
    obtain ⟨info1, hf1, ht1, hw1⟩ := addSentTargets_find_keep st.id k _ _ _ h1 info hf
    obtain ⟨info2, hf2, ht2, hw2⟩ := ih _ _ h2 info1 hf1
    exact ⟨info2, hf2, by rw [ht2, ht1], by rw [hw2, hw1]⟩

lemma addSents_skip (k : List Char) :
    ∀ (sts : List SentAnn) (d d' : List (List Char × TokInfo)),
      addSents sts d = .ok d' →
      (∀ st ∈ sts, ∀ t ∈ st.targets, t ≠ k) →
      dictFind? k d' = dictFind? k d := by
  intro sts
  induction sts with
  | nil =>
    intro d d' h _
    cases h
    rfl
  | cons st rest ih =>
    intro d d' h hk
    rw [show addSents (st :: rest) d =
          addSentTargets st.id st.targets d >>= addSents rest from rfl,
        except_bind_ok] at h
    obtain ⟨d1, h1, h2⟩ := h
    rw [ih _ _ h2 (fun st' h' => hk st' (List.mem_cons_of_mem st h')),
        addSentTargets_skip st.id k _ _ _ h1 (hk st (List.mem_cons_self st rest))]

lemma rowsOf_ok_tspan :
    ∀ (d : List (List Char × TokInfo)) (rows : List Tok), rowsOf d = .ok rows →
      ∀ p ∈ d, p.2.tspan ≠ none := by
  intro d
  induction d with
  | nil =>
    intro rows _ p hp
    exact absurd hp (List.not_mem_nil p)
  | cons q rest ih =>
    intro rows h p hp
    obtain ⟨k0, info0⟩ := q
    simp only [rowsOf] at h
    split at h
    · cases h
    · rename_i s e heq
      rw [except_bind_ok] at h
      obtain ⟨r0, hr0, _⟩ := h
      rcases List.mem_cons.mp hp with rfl | hp'
      · simp [heq]
      · exact ih r0 hr0 p hp'

lemma rowsOf_mem :
    ∀ (d : List (List Char × TokInfo)) (rows : List Tok), rowsOf d = .ok rows →
      ∀ (k : List Char) (info : TokInfo) (s e : Int), (k, info) ∈ d →
      info.tspan = some (s, e) → Tok.mk s e info.word info.sid ∈ rows := by
  intro d
  induction d with
  | nil =>
    intro rows _ k info s e hp _
    exact absurd hp (List.not_mem_nil _)
  | cons q rest ih =>
    intro rows h k info s e hp htspan
    obtain ⟨k0, info0⟩ := q
    simp only [rowsOf] at h
    split at h
    · cases h
    · rename_i s0 e0 heq
      rw [except_bind_ok] at h
      obtain ⟨r0, hr0, hpure⟩ := h
      have hrows : (Tok.mk s0 e0 info0.word info0.sid :: r0) = rows := by
        simpa [pure, Except.pure] using hpure
      rcases List.mem_cons.mp hp with hhead | hp'
      · injection hhead with h1 h2
        subst h1 h2
        rw [heq] at htspan
        injection htspan with h3
        injection h3 with h4 h5
        subst h4 h5
        rw [← hrows]
        exact List.mem_cons_self _ _
      · rw [← hrows]
        exact List.mem_cons_of_mem _ (ih r0 hr0 k info s e hp' htspan)

lemma flatMap_filter_eq {α β : Type} (f : α → List β) (p : α → Bool) :
    ∀ l : List α, (∀ x ∈ l, p x = false → f x = []) →
      (l.filter p).flatMap f = l.flatMap f := by
  intro l
  induction l with
  | nil => intro _; rfl
  | cons x rest ih =>
    intro h
    have hrest : ∀ y ∈ rest, p y = false → f y = [] :=
      fun y hy => h y (List.mem_cons_of_mem x hy)
    by_cases hp : p x
    · simp only [List.filter_cons, hp, if_true, List.flatMap_cons]
      rw [ih hrest]
    · have hpf : p x = false := by simpa using hp
      have hx : f x = [] := h x (List.mem_cons_self x rest) hpf
      simp only [List.filter_cons, hpf, Bool.false_eq_true, if_false,
        List.flatMap_cons, hx, List.nil_append]
      exact ih hrest

/-- C5: "Extractor omission of unaligned tokens: for every annotation view, a
token record that participates in zero alignment records is silently omitted
from the token table returned by make_toks_arr (no row for it, no error); a
token with an alignment but no sentence grouping is retained with an
absent/None label."  Amended: the silent omission holds only for
`proc_ww.make_toks_arr`; `proc_asr.make_toks_arr` instead refuses to return a
table at all (it raises `KeyError` on the unaligned token). So: (1) for
`proc_asr.make_toks_arr`, a view with an unaligned token never returns a
table; (2) for `proc_asr.make_toks_arr`, a token aligned but in no sentence is
retained with a `None` label; (3) for `proc_ww.make_toks_arr`, removing an
unaligned token from the view leaves the output unchanged (the token
contributes no row); (4) for `proc_ww.make_toks_arr`, a token aligned to a
speech time frame but in no sentence grouping is retained with a `None`
label. -/
theorem c5_unaligned_tokens_amended :
    (∀ (v : AsrView) (k : List Char),
        (∃ a ∈ v.toanns, a.id = k) →
        (∀ al ∈ v.alanns, al.target ≠ k) →
        ∀ rows, make_toks_arr_asr v ≠ .ok rows) ∧
    (∀ (v : AsrView) (a : TokenAnn) (rows : List Tok),
        make_toks_arr_asr v = .ok rows →
        (v.toanns.map TokenAnn.id).Nodup →
        a ∈ v.toanns →
        (∀ st ∈ v.stanns, ∀ t ∈ st.targets, t ≠ a.id) →
        ∃ r ∈ rows, r.text = a.word ∧ r.label = none) ∧
    (∀ (v : AsrView) (k : List Char),
        (∀ al ∈ v.alanns, al.target ≠ k) →
        make_toks_arr_ww v =
          make_toks_arr_ww ⟨v.toanns.filter (fun a => a.id ≠ k),
            v.tfanns, v.alanns, v.stanns⟩) ∧
    (∀ (v : AsrView) (ta : TokenAnn) (al : AlignAnn) (tfa : TFAnn),
        ta ∈ v.toanns → al ∈ v.alanns → tfa ∈ v.tfanns →
        al.target = ta.id → tfa.id = al.source →
        tfa.frameType = "speech".toList →
        (∀ st ∈ v.stanns, ∀ tg ∈ st.targets, tg ≠ ta.id) →
        ∃ r ∈ make_toks_arr_ww v, r.text = ta.word ∧ r.label = none) := by
  refine ⟨?_, ?_, ?_, ?_⟩
  · intro v k hk hal rows hok
    rw [show make_toks_arr_asr v =
          addAligns (buildTfs v) v.alanns (buildTos v) >>= (fun t1 =>
            addSents v.stanns t1 >>= fun t2 =>
              rowsOf t2 >>= fun rs =>
                pure (rs.mergeSort (fun a b => a.start ≤ b.start))) from rfl,
        except_bind_ok] at hok
    obtain ⟨d1, hd1, hok⟩ := hok
    rw [except_bind_ok] at hok
    obtain ⟨d2, hd2, hok⟩ := hok
    rw [except_bind_ok] at hok
    obtain ⟨rows0, hrows0, _⟩ := hok
    obtain ⟨w, hfind0⟩ := buildTos_find k v.toanns [] (Or.inl hk)
    have hfind1 : dictFind? k d1 = some ⟨w, none, none⟩ := by
      rw [addAligns_find_no_target (buildTfs v) k v.alanns _ _ hd1 hal]
      exact hfind0
    obtain ⟨info2, hfind2, ht2, -⟩ := addSents_find_keep k v.stanns _ _ hd2 _ hfind1
    exact rowsOf_ok_tspan d2 rows0 hrows0 (k, info2)
      (dictFind?_mem k info2 d2 hfind2) ht2
  · intro v a rows hok hnd ha hst
    rw [show make_toks_arr_asr v =
          addAligns (buildTfs v) v.alanns (buildTos v) >>= (fun t1 =>
            addSents v.stanns t1 >>= fun t2 =>
              rowsOf t2 >>= fun rs =>
                pure (rs.mergeSort (fun a b => a.start ≤ b.start))) from rfl,
        except_bind_ok] at hok
    obtain ⟨d1, hd1, hok⟩ := hok
    rw [except_bind_ok] at hok
    obtain ⟨d2, hd2, hok⟩ := hok
    rw [except_bind_ok] at hok
    obtain ⟨rows0, hrows0, hmerge⟩ := hok
    have hfind0 : dictFind? a.id (buildTos v) = some ⟨a.word, none, none⟩ :=
      buildTos_find_nodup a.id a.word v.toanns [] hnd ⟨a, ha, rfl, rfl⟩
    obtain ⟨info1, hfind1, hw1, hs1⟩ :=
      addAligns_find_word_sid (buildTfs v) a.id v.alanns _ _ hd1 _ hfind0
    have hfind2 : dictFind? a.id d2 = some info1 := by
      rw [addSents_skip a.id v.stanns _ _ hd2 hst]
      exact hfind1
    have hmem2 : (a.id, info1) ∈ d2 := dictFind?_mem _ _ _ hfind2
    have hne : info1.tspan ≠ none := rowsOf_ok_tspan d2 rows0 hrows0 _ hmem2
    obtain ⟨⟨s, e⟩, hsp⟩ : ∃ sp, info1.tspan = some sp :=
      Option.ne_none_iff_exists'.mp hne
    have hrow : Tok.mk s e info1.word info1.sid ∈ rows0 :=
      rowsOf_mem d2 rows0 hrows0 a.id info1 s e hmem2 hsp
    have hrows : rows = rows0.mergeSort (fun a b => a.start ≤ b.start) := by
      simpa [pure, Except.pure] using hmerge.symm
    refine ⟨Tok.mk s e info1.word info1.sid, ?_, hw1, hs1⟩
    rw [hrows, List.mem_mergeSort]
    exact hrow
  · intro v k hal
    have hm1 : (v.toanns.filter (fun a => a.id ≠ k)).flatMap
          (fun ta => (v.alanns.filter (fun al => al.target = ta.id)).map
            (fun al => (ta.id, ta.word, al.source))) =
        v.toanns.flatMap
          (fun ta => (v.alanns.filter (fun al => al.target = ta.id)).map
            (fun al => (ta.id, ta.word, al.source))) := by
      apply flatMap_filter_eq
      intro a hain hpf
      have hak : a.id = k := by simpa using hpf
      have hf : v.alanns.filter (fun al => al.target = a.id) = [] := by
        rw [List.filter_eq_nil_iff]
        intro al halm
        simp only [decide_eq_true_eq]
        rw [hak]
        exact hal al halm
      rw [hf]
      rfl
    dsimp only [make_toks_arr_ww]
    rw [hm1]
  · intro v ta al tfa hta hal htfa htgt hsrc hsp hnost
    have hm1 : (ta.id, ta.word, al.source) ∈
        v.toanns.flatMap (fun ta' =>
          (v.alanns.filter (fun al' => al'.target = ta'.id)).map
            (fun al' => (ta'.id, ta'.word, al'.source))) := by
      rw [List.mem_flatMap]
      refine ⟨ta, hta, ?_⟩
      rw [List.mem_map]
      refine ⟨al, ?_, rfl⟩
      rw [List.mem_filter]
      exact ⟨hal, by simp [htgt]⟩
    have hm2 : WRow.mk tfa.start tfa.stop ta.word ta.id ∈
        ((v.tfanns.filter (fun a => a.frameType = "speech".toList)).map
          (fun a => (a.id, a.start, a.stop))).flatMap (fun tf =>
            ((v.toanns.flatMap (fun ta' =>
              (v.alanns.filter (fun al' => al'.target = ta'.id)).map
                (fun al' => (ta'.id, ta'.word, al'.source)))).filter
                  (fun r => r.2.2 = tf.1)).map
              (fun r => WRow.mk tf.2.1 tf.2.2 r.2.1 r.1)) := by
      rw [List.mem_flatMap]
      refine ⟨(tfa.id, tfa.start, tfa.stop), ?_, ?_⟩
      · rw [List.mem_map]
        refine ⟨tfa, ?_, rfl⟩
        rw [List.mem_filter]
        exact ⟨htfa, by simp [hsp]⟩
      · rw [List.mem_map]
        refine ⟨(ta.id, ta.word, al.source), ?_, rfl⟩
        rw [List.mem_filter]
        exact ⟨hm1, by simp [hsrc]⟩
    refine ⟨Tok.mk tfa.start tfa.stop ta.word none, ?_, rfl, rfl⟩
    dsimp only [make_toks_arr_ww]
    rw [List.mem_mergeSort]
    by_cases hst : (v.stanns.flatMap
        (fun ann => ann.targets.map (fun tg => (tg, ann.id)))).isEmpty
    · rw [if_pos hst, List.mem_map]
      exact ⟨WRow.mk tfa.start tfa.stop ta.word ta.id, hm2, rfl⟩
    · rw [if_neg hst, List.mem_flatMap]
      refine ⟨WRow.mk tfa.start tfa.stop ta.word ta.id, hm2, ?_⟩
      have hfil : (v.stanns.flatMap
          (fun ann => ann.targets.map (fun tg => (tg, ann.id)))).filter
            (fun p => p.1 = (WRow.mk tfa.start tfa.stop ta.word ta.id).toId) = [] := by
        rw [List.filter_eq_nil_iff]
        intro p hp
        rw [List.mem_flatMap] at hp
        obtain ⟨st, hstm, hpm⟩ := hp
        rw [List.mem_map] at hpm
        obtain ⟨tg, htg, rfl⟩ := hpm
        simp only [decide_eq_true_eq]
        exact hnost st hstm tg htg
      rw [hfil]
      simp

/-- A view with two tokens, one speech time frame, and a single alignment:
token `t2` participates in zero alignment records. -/
def c5View : AsrView :=
  { toanns := [⟨"t1".toList, "hello".toList⟩, ⟨"t2".toList, "world".toList⟩],
    tfanns := [⟨"f1".toList, "speech".toList, 0, 500⟩],
    alanns := [⟨"f1".toList, "t1".toList⟩],
    stanns := [] }

/-- The same view with token `t2` also aligned to the speech frame. -/
def c5ViewB : AsrView :=
  { c5View with alanns := [⟨"f1".toList, "t1".toList⟩, ⟨"f1".toList, "t2".toList⟩] }

/-- C5, counterexample: on a view whose token `t2` participates in zero
alignment records, `proc_asr.make_toks_arr` does not silently omit the token:
it raises (`KeyError` on `tos[k]["tspan"]`, here `.error .unaligned`) and
returns no table, while `proc_ww.make_toks_arr` on the very same view is the
claimed silent omission (one row, for the aligned token only, no error). -/
theorem c5_unaligned_counterexample :
    make_toks_arr_asr c5View = .error .unaligned ∧
    make_toks_arr_ww c5View = [⟨0, 500, "hello".toList, none⟩] := by
  constructor
  · rfl
  · show ([(⟨0, 500, "hello".toList, none⟩ : Tok)]).mergeSort
        (fun a b => a.start ≤ b.start) = _
    exact List.mergeSort_of_sorted (by decide)

theorem c5_unaligned_witness :
    (∀ rows, make_toks_arr_asr c5View ≠ .ok rows) ∧
    (∃ r ∈ ([⟨0, 500, "hello".toList, none⟩, ⟨0, 500, "world".toList, none⟩] :
        List Tok), r.text = "world".toList ∧ r.label = none) ∧
    (make_toks_arr_ww c5View =
      make_toks_arr_ww ⟨c5View.toanns.filter (fun a => a.id ≠ "t2".toList),
        c5View.tfanns, c5View.alanns, c5View.stanns⟩) ∧
    (∃ r ∈ make_toks_arr_ww c5View, r.text = "hello".toList ∧ r.label = none) := by
  have hok : make_toks_arr_asr c5ViewB =
      .ok [⟨0, 500, "hello".toList, none⟩, ⟨0, 500, "world".toList, none⟩] := by
    show Except.ok (([(⟨0, 500, "hello".toList, none⟩ : Tok),
        ⟨0, 500, "world".toList, none⟩]).mergeSort
        (fun a b => a.start ≤ b.start)) = _
    rw [List.mergeSort_of_sorted (by decide)]
  refine ⟨c5_unaligned_tokens_amended.1 c5View ("t2".toList)
      ⟨⟨"t2".toList, "world".toList⟩, by decide, rfl⟩ (by decide),
    c5_unaligned_tokens_amended.2.1 c5ViewB ⟨"t2".toList, "world".toList⟩ _
      hok (by decide) (by decide) (by decide),
    c5_unaligned_tokens_amended.2.2.1 c5View ("t2".toList) (by decide),
    c5_unaligned_tokens_amended.2.2.2 c5View ⟨"t1".toList, "hello".toList⟩
      ⟨"f1".toList, "t1".toList⟩ ⟨"f1".toList, "speech".toList, 0, 500⟩
      (by decide) (by decide) (by decide) rfl rfl rfl (by decide)⟩

/-! Toolkit for the line-wrap bound of `break_long_line`.  The wrapper only
ever appends a single `'\n'` to the end of a word, so every word stays
newline-free except possibly for one final break character; the joined and
rewritten string then splits into lines that can be read off the word list
directly. -/

/-- A word carries a line break: its last character is `'\n'`. -/
def wMarked (w : List Char) : Bool := w.getLast? = some '\n'

/-- The word's text without its break character. -/
def wContent (w : List Char) : List Char := if wMarked w then w.dropLast else w

/-- Well-formed word: no `'\n'` anywhere except possibly at the very end. -/
def wfWord (w : List Char) : Prop := '\n' ∉ w.dropLast

/-- Append a word to an open line (`none` = no line opened yet), inserting
the space that `" ".join` will insert. -/
def addW (cur : Option (List Char)) (w : List Char) : List Char :=
  match cur with
  | none => w
  | some c => c ++ ' ' :: w

/-- The lines the joined and rewritten word list splits into: an unmarked
word accumulates on the open line; a marked word closes its line. -/
def linesA : List (List Char) → Option (List Char) → List (List Char)
  | [], cur => [cur.getD []]
  | w :: ws, cur =>
    if wMarked w then addW cur (wContent w) :: linesA ws none
    else linesA ws (some (addW cur w))

/-- The open line left over after feeding all the words. -/
def curAfter : List (List Char) → Option (List Char) → Option (List Char)
  | [], cur => cur
  | w :: ws, cur =>
    if wMarked w then curAfter ws none
    else curAfter ws (some (addW cur w))

/-- The spaced tail of `" ".join`: every word preceded by one space. -/
def joinTail (wl : List (List Char)) : List Char :=
  (wl.map (fun u => ' ' :: u)).join

/-- A partially built join: `none` means no word has been placed yet. -/
def joinCur : Option (List Char) → List (List Char) → List Char
  | none, wl => joinSp wl
  | some c, wl => c ++ joinTail wl

lemma wMarked_concat (y : List Char) : wMarked (y ++ ['\n']) = true := by
  simp [wMarked, List.getLast?_concat]

lemma wContent_concat (y : List Char) : wContent (y ++ ['\n']) = y := by
  simp [wContent, wMarked_concat, List.dropLast_concat]

lemma wfWord_concat {y : List Char} (h : '\n' ∉ y) : wfWord (y ++ ['\n']) := by
  simpa [wfWord, List.dropLast_concat] using h

lemma wContent_of_unmarked {w : List Char} (hm : wMarked w = false) :
    wContent w = w := by
  simp [wContent, hm]

lemma wMarked_of_nlfree {w : List Char} (h : '\n' ∉ w) : wMarked w = false := by
  rcases List.eq_nil_or_concat w with rfl | ⟨ys, a, rfl⟩
  · rfl
  · rw [List.concat_eq_append, wMarked, List.getLast?_concat]
    have ha : a ≠ '\n' := fun he => h (by simp [he])
    simpa using ha

lemma wfWord_of_nlfree {w : List Char} (h : '\n' ∉ w) : wfWord w :=
  fun hc => h (List.dropLast_subset w hc)

lemma nlFree_of_unmarked {w : List Char} (hwf : wfWord w) (hm : wMarked w = false) :
    '\n' ∉ w := by
  rcases List.eq_nil_or_concat w with rfl | ⟨ys, a, rfl⟩
  · simp
  · rw [List.concat_eq_append] at hwf hm ⊢
    rw [wMarked, List.getLast?_concat] at hm
    rw [wfWord, List.dropLast_concat] at hwf
    have ha : a ≠ '\n' := by
      intro he
      rw [he] at hm
      simp at hm
    intro hmem
    rcases List.mem_append.mp hmem with h1 | h1
    · exact hwf h1
    · simp at h1
      exact ha h1.symm

lemma wContent_length_le (w : List Char) : (wContent w).length ≤ w.length := by
  rw [wContent]
  by_cases h : wMarked w
  · simp [h, List.length_dropLast]
  · simp [h]

lemma linesA_ne_nil : ∀ (wl : List (List Char)) (cur : Option (List Char)),
    linesA wl cur ≠ [] := by
  intro wl
  induction wl with
  | nil => intro cur; simp [linesA]
  | cons w ws ih =>
    intro cur
    by_cases h : wMarked w <;> simp [linesA, h, ih]

lemma curAfter_single (cur : Option (List Char)) (w : List Char) :
    curAfter [w] cur = if wMarked w then none else some (addW cur w) := by
  by_cases h : wMarked w <;> simp [curAfter, h]

lemma linesA_single (cur : Option (List Char)) (w : List Char) :
    linesA [w] cur =
      if wMarked w then [addW cur (wContent w), []] else [addW cur w] := by
  by_cases h : wMarked w <;> simp [linesA, h]

lemma curAfter_append : ∀ (xs ys : List (List Char)) (cur : Option (List Char)),
    curAfter (xs ++ ys) cur = curAfter ys (curAfter xs cur) := by
  intro xs
  induction xs with
  | nil => intro ys cur; rfl
  | cons w xs ih =>
    intro ys cur
    by_cases h : wMarked w <;> simp [curAfter, h, ih]

lemma linesA_append : ∀ (xs ys : List (List Char)) (cur : Option (List Char)),
    linesA (xs ++ ys) cur =
      (linesA xs cur).dropLast ++ linesA ys (curAfter xs cur) := by
  intro xs
  induction xs with
  | nil => intro ys cur; simp [linesA, curAfter]
  | cons w xs ih =>
    intro ys cur
    by_cases h : wMarked w
    · simp only [List.cons_append, List.append_eq, linesA, curAfter, h, if_true]
      rw [ih, List.dropLast_cons_of_ne_nil (linesA_ne_nil xs none), List.cons_append]
    · simp only [List.cons_append, linesA, curAfter, h, if_false]
      exact ih ys (some (addW cur w))

lemma linesA_eq_dropLast_concat : ∀ (wl : List (List Char)) (cur : Option (List Char)),
    linesA wl cur = (linesA wl cur).dropLast ++ [(curAfter wl cur).getD []] := by
  intro wl
  induction wl with
  | nil => intro cur; rfl
  | cons w ws ih =>
    intro cur
    by_cases h : wMarked w
    · simp only [linesA, curAfter, h, if_true]
      rw [List.dropLast_cons_of_ne_nil (linesA_ne_nil ws none), List.cons_append, ← ih]
    · simp only [linesA, curAfter, h, if_false]
      exact ih (some (addW cur w))

lemma addW_le (cur : Option (List Char)) (w : List Char) (L : Int)
    (h : (((cur.getD []).length : Int)) ≤ L) :
    ((addW cur w).length : Int) ≤ L + 1 + w.length := by
  cases cur with
  | none =>
    simp only [Option.getD_none, List.length_nil, Nat.cast_zero] at h
    simp only [addW]
    omega
  | some c =>
    simp only [Option.getD_some] at h
    simp only [addW, List.length_append, List.length_cons]
    push_cast
    omega

lemma replNlSp_cons_of_ne {c : Char} (h : c ≠ '\n') (t : List Char) :
    replNlSp (c :: t) = c :: replNlSp t := by
  cases t with
  | nil => simp [replNlSp, h]
  | cons c2 t2 => simp [replNlSp, h]

lemma replNlSp_nlfree_append {u : List Char} (hu : '\n' ∉ u) (rest : List Char) :
    replNlSp (u ++ rest) = u ++ replNlSp rest := by
  induction u with
  | nil => rfl
  | cons c cs ih =>
    have hc : c ≠ '\n' := fun he => hu (he ▸ List.mem_cons_self c cs)
    have hcs : '\n' ∉ cs := fun he => hu (List.mem_cons_of_mem c he)
    rw [List.cons_append, replNlSp_cons_of_ne hc, ih hcs, List.cons_append]

lemma splitNl_ne_nil : ∀ s : List Char, splitNl s ≠ [] := by
  intro s
  cases s with
  | nil => simp [splitNl]
  | cons c cs => by_cases h : c = '\n' <;> simp [splitNl, h]

lemma splitNl_nlfree_append {u : List Char} (hu : '\n' ∉ u) (rest : List Char) :
    splitNl (u ++ rest) =
      (u ++ (splitNl rest).headD []) :: (splitNl rest).tail := by
  induction u with
  | nil =>
    cases hs : splitNl rest with
    | nil => exact absurd hs (splitNl_ne_nil rest)
    | cons l ls => simp [hs]
  | cons c cs ih =>
    have hc : c ≠ '\n' := fun he => hu (he ▸ List.mem_cons_self c cs)
    have hcs : '\n' ∉ cs := fun he => hu (List.mem_cons_of_mem c he)
    rw [List.cons_append]
    simp only [splitNl, hc, if_false, ih hcs]
    simp

lemma splitNl_nl (t : List Char) : splitNl ('\n' :: t) = [] :: splitNl t := by
  simp [splitNl]

lemma splitNl_nlfree {u : List Char} (hu : '\n' ∉ u) : splitNl u = [u] := by
  have h := splitNl_nlfree_append hu []
  simpa [splitNl] using h

lemma joinTail_cons (w : List Char) (ws : List (List Char)) :
    joinTail (w :: ws) = ' ' :: (w ++ joinTail ws) := by
  simp [joinTail]

lemma joinCur_marked (cur : Option (List Char)) (ys : List Char)
    (ws : List (List Char)) :
    joinCur cur ((ys ++ ['\n']) :: ws) = addW cur ys ++ '\n' :: joinTail ws := by
  cases cur with
  | none => simp [joinCur, joinSp, joinTail, addW]
  | some c => simp [joinCur, joinTail_cons, addW]

lemma joinCur_unmarked (cur : Option (List Char)) (w : List Char)
    (ws : List (List Char)) :
    joinCur cur (w :: ws) = joinCur (some (addW cur w)) ws := by
  cases cur with
  | none => simp [joinCur, joinSp, joinTail, addW]
  | some c => simp [joinCur, joinTail_cons, addW]

lemma addW_nlfree {cur : Option (List Char)} {w : List Char}
    (hcur : '\n' ∉ (cur.getD [])) (hw : '\n' ∉ w) : '\n' ∉ addW cur w := by
  cases cur with
  | none => simpa [addW] using hw
  | some c =>
    simp only [Option.getD_some] at hcur
    simp only [addW, List.mem_append, List.mem_cons]
    rintro (h | h | h)
    · exact hcur h
    · exact absurd h.symm (by decide)
    · exact hw h

/-- The joined word list, with the space after each break removed, splits
into exactly the lines read off by `linesA`. -/
lemma lines_of_words : ∀ (wl : List (List Char)) (cur : Option (List Char)),
    (∀ w ∈ wl, wfWord w) → '\n' ∉ cur.getD [] →
    splitNl (replNlSp (joinCur cur wl)) = linesA wl cur := by
  intro wl
  induction wl with
  | nil =>
    intro cur hwf hcur
    cases cur with
    | none => rfl
    | some c =>
      simp only [Option.getD_some] at hcur
      simp only [joinCur, joinTail, List.map_nil, List.join_nil, List.append_nil]
      rw [show replNlSp c = c by
            have h := replNlSp_nlfree_append hcur []
            simpa [replNlSp] using h,
          splitNl_nlfree hcur]
      rfl
  | cons w ws ih =>
    intro cur hwf hcur
    have hwfw : wfWord w := hwf w (List.mem_cons_self w ws)
    have hwfs : ∀ v ∈ ws, wfWord v := fun v hv => hwf v (List.mem_cons_of_mem w hv)
    by_cases hm : wMarked w
    · rcases List.eq_nil_or_concat w with hnil | ⟨ys, a, hya⟩
      · rw [hnil] at hm
        exact absurd hm (by simp [wMarked])
      · rw [List.concat_eq_append] at hya
        subst hya
        have ha : a = '\n' := by
          rw [wMarked, List.getLast?_concat] at hm
          simpa using hm
        subst ha
        have hys : '\n' ∉ ys := by
          rw [wfWord, List.dropLast_concat] at hwfw
          exact hwfw
        have hp : '\n' ∉ addW cur ys := addW_nlfree hcur hys
        rw [joinCur_marked]
        cases ws with
        | nil =>
          rw [show joinTail [] = [] from rfl]
          rw [replNlSp_nlfree_append hp]
          rw [show replNlSp ['\n'] = ['\n'] from rfl]
          rw [splitNl_nlfree_append hp]
          simp [linesA, hm, wContent_concat, splitNl]
        | cons w2 ws2 =>
          rw [joinTail_cons]
          rw [show addW cur ys ++ '\n' :: ' ' :: (w2 ++ joinTail ws2) =
                addW cur ys ++ '\n' :: ' ' :: joinCur none (w2 :: ws2) by
              simp [joinCur, joinSp, joinTail]]
          rw [replNlSp_nlfree_append hp,
              show replNlSp ('\n' :: ' ' :: joinCur none (w2 :: ws2)) =
                '\n' :: replNlSp (joinCur none (w2 :: ws2)) from rfl]
          rw [splitNl_nlfree_append hp, splitNl_nl]
          simp only [List.headD_cons, List.tail_cons, List.append_nil]
          rw [ih none hwfs (by simp)]
          simp [linesA, hm, wContent_concat]
    · have hwnl : '\n' ∉ w := nlFree_of_unmarked hwfw (by simpa using hm)
      rw [joinCur_unmarked, ih (some (addW cur w)) hwfs
            (by simpa using addW_nlfree hcur hwnl)]
      simp [linesA, hm]

lemma set_at_concat {α : Type} (x : α) : ∀ (xs : List α) (y : α) (ys : List α),
    (xs ++ y :: ys).set xs.length x = xs ++ x :: ys := by
  intro xs
  induction xs with
  | nil => intro y ys; rfl
  | cons a xs ih =>
    intro y ys
    simp only [List.cons_append, List.length_cons, List.set_cons_succ, ih]

lemma get?_at_concat {α : Type} : ∀ (xs : List α) (y : α) (ys : List α),
    (xs ++ y :: ys).get? xs.length = some y := by
  intro xs
  induction xs with
  | nil => intro y ys; rfl
  | cons a xs ih =>
    intro y ys
    simp only [List.cons_append, List.length_cons, List.get?_cons_succ, ih]

lemma dropLast_append_pair {α : Type} (A : List α) (u v : α) :
    (A ++ [u, v]).dropLast = A ++ [u] := by
  rw [show A ++ [u, v] = (A ++ [u]) ++ [v] by simp, List.dropLast_concat]

/-- Invariant induction for the wrapping loop: starting past a non-empty
prefix `done` with the remaining words `rest` still to process, if every word
is well-formed with content within budget, no word of `rest` but possibly its
last is marked, the closed lines so far are within budget, and the open line
is within budget and over-approximated by `llen`, then the final word list is
well-formed and all of its lines are within budget. -/
lemma wrapGo_bound (m : Int) (hm : 0 ≤ m) :
    ∀ (rest : List (List Char)) (fuel : Nat) (llen : Int) (done : List (List Char)),
      rest.length ≤ fuel →
      done ≠ [] →
      (∀ w ∈ done ++ rest, wfWord w ∧ ((wContent w).length : Int) ≤ m) →
      (∀ w ∈ rest.dropLast, wMarked w = false) →
      (rest ≠ [] → wMarked ((done.getLast?).getD []) = false) →
      (∀ l ∈ (linesA done none).dropLast, (l.length : Int) ≤ m) →
      (((curAfter done none).getD []).length : Int) ≤ m →
      (((curAfter done none).getD []).length : Int) ≤ llen →
      (∀ w ∈ wrapGo m fuel done.length llen (done ++ rest), wfWord w) ∧
      (∀ l ∈ linesA (wrapGo m fuel done.length llen (done ++ rest)) none,
        (l.length : Int) ≤ m) := by
  intro rest
  induction rest with
  | nil =>
    intro fuel llen done hfuel hne hW1 hW2 hW6 hW3 hW4 hW5
    have hres : wrapGo m fuel done.length llen (done ++ []) = done := by
      rw [List.append_nil]
      cases fuel with
      | zero => rfl
      | succ f =>
        have hg : done.get? done.length = none := by
          rw [List.get?_eq_none]
        simp [wrapGo, hg]
    rw [hres]
    constructor
    · intro w hw
      exact (hW1 w (by simpa using hw)).1
    · intro l hl
      rw [linesA_eq_dropLast_concat done none] at hl
      rcases List.mem_append.mp hl with h | h
      · exact hW3 l h
      · simp only [List.mem_singleton] at h
        subst h
        exact hW4
  | cons w rs ih =>
    intro fuel llen done hfuel hne hW1 hW2 hW6 hW3 hW4 hW5
    cases fuel with
    | zero => simp at hfuel
    | succ f =>
    obtain ⟨xs, y, rfl⟩ : ∃ xs y, done = xs ++ [y] := by
      rcases List.eq_nil_or_concat done with h | ⟨xs, y, h⟩
      · exact absurd h hne
      · exact ⟨xs, y, by rw [h, List.concat_eq_append]⟩
    have hfuel' : rs.length ≤ f := by
      simp only [List.length_cons] at hfuel
      omega
    have hassoc : (xs ++ [y]) ++ w :: rs = xs ++ y :: (w :: rs) := by simp
    have hgetw : ((xs ++ [y]) ++ w :: rs).get? (xs ++ [y]).length = some w :=
      get?_at_concat (xs ++ [y]) w rs
    have hy : wfWord y ∧ ((wContent y).length : Int) ≤ m := hW1 y (by simp)
    have hw1 : wfWord w ∧ ((wContent w).length : Int) ≤ m := hW1 w (by simp)
    have hyum : wMarked y = false := by
      have h := hW6 (by simp)
      simpa [List.getLast?_concat] using h
    have hylen : ((y.length : Int)) ≤ m := by
      have h := hy.2
      rwa [wContent_of_unmarked hyum] at h
    have hcA : curAfter (xs ++ [y]) none = some (addW (curAfter xs none) y) := by
      rw [curAfter_append, curAfter_single, if_neg (by simp [hyum])]
    have hOpD : (curAfter (xs ++ [y]) none).getD [] = addW (curAfter xs none) y := by
      rw [hcA]
      rfl
    have hClD : (linesA (xs ++ [y]) none).dropLast = (linesA xs none).dropLast := by
      rw [linesA_append, linesA_single, if_neg (by simp [hyum]), List.dropLast_concat]
    rw [hOpD] at hW4 hW5
    rw [hClD] at hW3
    have hllen0 : (0:Int) ≤ llen := le_trans (Int.natCast_nonneg _) hW5
    have hW2' : ∀ v ∈ rs.dropLast, wMarked v = false := by
      intro v hv
      apply hW2
      cases rs with
      | nil => simp at hv
      | cons r rs' =>
        rw [List.dropLast_cons_of_ne_nil (by simp)]
        exact List.mem_cons_of_mem _ hv
    have hwum : rs ≠ [] → wMarked w = false := by
      intro hrs
      apply hW2
      cases rs with
      | nil => exact absurd rfl hrs
      | cons r rs' =>
        rw [List.dropLast_cons_of_ne_nil (by simp)]
        exact List.mem_cons_self _ _
    by_cases hc : llen + 1 + (w.length : Int) > m
    · -- break: a '\n' is appended to word i-1 = the last word of done
      have hlen0 : ¬ (xs ++ [y]).length = 0 := by simp
      have hgety : ((xs ++ [y]) ++ w :: rs).get? xs.length = some y := by
        rw [hassoc]
        exact get?_at_concat xs y (w :: rs)
      have hset : ((xs ++ [y]) ++ w :: rs).set xs.length (y ++ ['\n']) =
          (xs ++ [y ++ ['\n']]) ++ w :: rs := by
        rw [hassoc, set_at_concat]
        simp
      have hgetw2 : ((xs ++ [y ++ ['\n']]) ++ w :: rs).get? (xs ++ [y]).length =
          some w := by
        rw [show (xs ++ [y]).length = (xs ++ [y ++ ['\n']]).length by simp]
        exact get?_at_concat _ w rs
      simp only [wrapGo, hgetw, if_pos hc, if_neg hlen0,
        show (xs ++ [y]).length - 1 = xs.length by simp,
        hgety, Option.getD_some, hset, hgetw2]
      rw [show (xs ++ [y ++ ['\n']]) ++ w :: rs =
            ((xs ++ [y ++ ['\n']]) ++ [w]) ++ rs by simp,
          show (xs ++ [y]).length + 1 = ((xs ++ [y ++ ['\n']]) ++ [w]).length by simp]
      have hynl : '\n' ∉ y := nlFree_of_unmarked hy.1 hyum
      have hcur2 : curAfter (xs ++ [y ++ ['\n']]) none = none := by
        rw [curAfter_append, curAfter_single, if_pos (wMarked_concat y)]
      have hlines2 : linesA (xs ++ [y ++ ['\n']]) none =
          (linesA xs none).dropLast ++ [addW (curAfter xs none) y, []] := by
        rw [linesA_append, linesA_single, if_pos (wMarked_concat y), wContent_concat]
      have hlinesD : linesA ((xs ++ [y ++ ['\n']]) ++ [w]) none =
          ((linesA xs none).dropLast ++ [addW (curAfter xs none) y]) ++
            linesA [w] none := by
        rw [linesA_append, hcur2, hlines2, dropLast_append_pair]
      have hcurD : curAfter ((xs ++ [y ++ ['\n']]) ++ [w]) none =
          if wMarked w then none else some w := by
        rw [curAfter_append, hcur2, curAfter_single]
        rfl
      apply ih f _ ((xs ++ [y ++ ['\n']]) ++ [w]) hfuel' (by simp)
      · intro v hv
        by_cases hveq : v = y ++ ['\n']
        · subst hveq
          refine ⟨wfWord_concat hynl, ?_⟩
          rw [wContent_concat]
          exact hylen
        · apply hW1
          simp only [List.append_assoc, List.mem_append, List.mem_singleton,
            List.mem_cons, List.not_mem_nil, or_false] at hv ⊢
          tauto
      · exact hW2'
      · intro hrs
        rw [List.getLast?_concat]
        exact hwum hrs
      · intro l hl
        rw [hlinesD] at hl
        by_cases hmw : wMarked w
        · rw [linesA_single, if_pos hmw, addW, dropLast_append_pair] at hl
          rcases List.mem_append.mp hl with h | h
          · rcases List.mem_append.mp h with h1 | h1
            · exact hW3 l h1
            · simp only [List.mem_singleton] at h1
              subst h1
              exact hW4
          · simp only [List.mem_singleton] at h
            subst h
            exact hw1.2
        · rw [linesA_single, if_neg hmw, addW, List.dropLast_concat] at hl
          rcases List.mem_append.mp hl with h | h
          · exact hW3 l h
          · simp only [List.mem_singleton] at h
            subst h
            exact hW4
      · rw [hcurD]
        by_cases hmw : wMarked w
        · simpa [hmw] using hm
        · rw [if_neg hmw]
          have h := hw1.2
          rwa [wContent_of_unmarked (by simpa using hmw)] at h
      · rw [hcurD]
        by_cases hmw : wMarked w
        · simp [hmw]
        · simp [hmw]
    · -- no break: the word joins the open line
      simp only [wrapGo, hgetw, if_neg hc]
      rw [show (xs ++ [y]) ++ w :: rs = ((xs ++ [y]) ++ [w]) ++ rs by simp,
          show (xs ++ [y]).length + 1 = ((xs ++ [y]) ++ [w]).length by simp]
      have hnc : llen + 1 + (w.length : Int) ≤ m := by omega
      have hlines3 : linesA ((xs ++ [y]) ++ [w]) none =
          (linesA xs none).dropLast ++
            linesA [w] (some (addW (curAfter xs none) y)) := by
        rw [linesA_append, hcA, hClD]
      have hcur3 : curAfter ((xs ++ [y]) ++ [w]) none =
          if wMarked w then none
          else some (addW (some (addW (curAfter xs none) y)) w) := by
        rw [curAfter_append, hcA, curAfter_single]
      have haddle : ∀ u : List Char,
          ((addW (some (addW (curAfter xs none) y)) u).length : Int) ≤
            llen + 1 + u.length := by
        intro u
        exact addW_le _ u llen hW5
      apply ih f _ ((xs ++ [y]) ++ [w]) hfuel' (by simp)
      · intro v hv
        apply hW1
        simp only [List.append_assoc, List.mem_append, List.mem_singleton,
          List.mem_cons, List.not_mem_nil, or_false] at hv ⊢
        tauto
      · exact hW2'
      · intro hrs
        rw [List.getLast?_concat]
        exact hwum hrs
      · intro l hl
        rw [hlines3] at hl
        by_cases hmw : wMarked w
        · rw [linesA_single, if_pos hmw, dropLast_append_pair] at hl
          rcases List.mem_append.mp hl with h | h
          · exact hW3 l h
          · simp only [List.mem_singleton] at h
            subst h
            have h1 := haddle (wContent w)
            have h2 : ((wContent w).length : Int) ≤ (w.length : Int) := by
              exact_mod_cast wContent_length_le w
            omega
        · rw [linesA_single, if_neg hmw, List.dropLast_concat] at hl
          exact hW3 l hl
      · rw [hcur3]
        by_cases hmw : wMarked w
        · simpa [hmw] using hm
        · rw [if_neg hmw]
          have h1 := haddle w
          simp only [Option.getD_some]
          omega
      · rw [hcur3]
        by_cases hmw : wMarked w
        · simp [hmw]
          omega
        · rw [if_neg hmw]
          simpa using haddle w

lemma splitSp_ne_nil : ∀ s : List Char, splitSp s ≠ [] := by
  intro s
  cases s with
  | nil => simp [splitSp]
  | cons c cs => by_cases h : c = ' ' <;> simp [splitSp, h]

lemma splitSp_subset : ∀ (s : List Char), ∀ w ∈ splitSp s, ∀ c ∈ w, c ∈ s := by
  intro s
  induction s with
  | nil =>
    intro w hw c hc
    simp [splitSp] at hw
    subst hw
    exact absurd hc (List.not_mem_nil c)
  | cons a s ih =>
    intro w hw c hc
    by_cases ha : a = ' '
    · rw [show splitSp (a :: s) = [] :: splitSp s by simp [splitSp, ha]] at hw
      rcases List.mem_cons.mp hw with rfl | hw
      · exact absurd hc (List.not_mem_nil c)
      · exact List.mem_cons_of_mem a (ih w hw c hc)
    · rw [show splitSp (a :: s) = (a :: (splitSp s).headD []) :: (splitSp s).tail
            by simp [splitSp, ha]] at hw
      rcases List.mem_cons.mp hw with rfl | hw
      · rcases List.mem_cons.mp hc with rfl | hc2
        · exact List.mem_cons_self _ _
        · have hh : (splitSp s).headD [] ∈ splitSp s := by
            cases hsp : splitSp s with
            | nil => exact absurd hsp (splitSp_ne_nil s)
            | cons l ls => simp
          exact List.mem_cons_of_mem a (ih _ hh c hc2)
      · have ht : w ∈ splitSp s := List.mem_of_mem_tail hw
        exact List.mem_cons_of_mem a (ih w ht c hc)

lemma truncWords_facts (wl : List (List Char)) (m : Int) (hm : 0 ≤ m) :
    ∀ w' ∈ truncWords wl m,
      (∃ w ∈ wl, ∀ c ∈ w', c ∈ w) ∧ ((w'.length : Int)) ≤ m := by
  intro w' hw'
  simp only [truncWords, List.mem_map] at hw'
  obtain ⟨w, hw, rfl⟩ := hw'
  by_cases hl : ((w.length : Int)) > m
  · rw [if_pos hl, pyTake, if_pos hm]
    refine ⟨⟨w, hw, fun c hc => List.take_subset _ _ hc⟩, ?_⟩
    rw [List.length_take]
    have hmt : ((m.toNat : Int)) = m := Int.toNat_of_nonneg hm
    have h2 : m.toNat ≤ w.length := by omega
    rw [min_eq_left h2]
    omega
  · rw [if_neg hl]
    exact ⟨⟨w, hw, fun c hc => hc⟩, by omega⟩


/-- Starting the wrapping loop at index 0 on newline-free words within
budget: the final word list is well-formed and all of its lines are within
budget. -/
lemma wrapGo_bound_start (m : Int) (hm : 0 ≤ m) (wordl : List (List Char))
    (hws : ∀ w ∈ wordl, '\n' ∉ w ∧ ((w.length : Int)) ≤ m) :
    (∀ w ∈ wrapGo m wordl.length 0 0 wordl, wfWord w) ∧
    (∀ l ∈ linesA (wrapGo m wordl.length 0 0 wordl) none,
      (l.length : Int) ≤ m) := by
  cases wordl with
  | nil =>
    constructor
    · intro w hw
      simp [wrapGo] at hw
    · intro l hl
      simp [wrapGo, linesA] at hl
      subst hl
      simpa using hm
  | cons w0 ws =>
    have hw0 := hws w0 (List.mem_cons_self w0 ws)
    have hw0um : wMarked w0 = false := wMarked_of_nlfree hw0.1
    have hwsF : ∀ w ∈ ws, '\n' ∉ w ∧ ((w.length : Int)) ≤ m :=
      fun w hw => hws w (List.mem_cons_of_mem w0 hw)
    have hW1s : ∀ v ∈ [w0] ++ ws, wfWord v ∧ ((wContent v).length : Int) ≤ m := by
      intro v hv
      have hv' := hws v (by simpa using hv)
      refine ⟨wfWord_of_nlfree hv'.1, ?_⟩
      rw [wContent_of_unmarked (wMarked_of_nlfree hv'.1)]
      exact hv'.2
    have hW2s : ∀ w ∈ ws.dropLast, wMarked w = false :=
      fun w hw => wMarked_of_nlfree (hwsF w (List.dropLast_subset ws hw)).1
    have hW6s : ws ≠ [] → wMarked ((([w0] : List (List Char)).getLast?).getD []) = false :=
      fun _ => by simpa using hw0um
    have hW3s : ∀ l ∈ (linesA [w0] none).dropLast, (l.length : Int) ≤ m := by
      intro l hl
      rw [linesA_single, if_neg (by simp [hw0um])] at hl
      simp at hl
    have hW4s : (((curAfter [w0] none).getD []).length : Int) ≤ m := by
      rw [curAfter_single, if_neg (by simp [hw0um])]
      simpa [addW] using hw0.2
    by_cases h0 : (0:Int) + 1 + (w0.length : Int) > m
    · cases hws2 : ws with
      | nil =>
        subst hws2
        have h0' : m < 1 + (w0.length : Int) := by omega
        have hres : wrapGo m (w0 :: ([] : List (List Char))).length 0 0 (w0 :: []) =
            [w0 ++ ['\n']] := by
          simp [wrapGo, h0']
        rw [hres]
        constructor
        · intro v hv
          simp only [List.mem_singleton] at hv
          subst hv
          exact wfWord_concat hw0.1
        · intro l hl
          rw [linesA_single, if_pos (wMarked_concat w0), wContent_concat] at hl
          simp only [addW, List.mem_cons, List.not_mem_nil, or_false] at hl
          rcases hl with rfl | rfl
          · exact hw0.2
          · simpa using hm
      | cons w1 ws1 =>
        rcases List.eq_nil_or_concat (w1 :: ws1) with hcon | ⟨zs, ylast, hcon⟩
        · simp at hcon
        rw [List.concat_eq_append] at hcon
        rw [hcon]
        have hyl := hwsF ylast (by rw [hws2, hcon]; simp)
        have e0 : w0 :: (zs ++ [ylast]) = (w0 :: zs) ++ ylast :: [] := by simp
        have elen : (zs ++ [ylast]).length = (w0 :: zs).length := by simp
        have e1 : (w0 :: (zs ++ [ylast])).get? (zs ++ [ylast]).length = some ylast := by
          rw [e0, elen]
          exact get?_at_concat (w0 :: zs) ylast []
        have e2 : (w0 :: (zs ++ [ylast])).set (zs ++ [ylast]).length (ylast ++ ['\n']) =
            [w0] ++ (zs ++ [ylast ++ ['\n']]) := by
          rw [e0, elen, set_at_concat]
          simp
        have hstep : wrapGo m (w0 :: (zs ++ [ylast])).length 0 0 (w0 :: (zs ++ [ylast])) =
            wrapGo m (zs ++ [ylast]).length ([w0] : List (List Char)).length
              ((w0.length : Int)) ([w0] ++ (zs ++ [ylast ++ ['\n']])) := by
          simp only [wrapGo, List.length_cons, List.get?_cons_zero, Option.getD_some,
            if_pos h0, eq_self_iff_true, if_true, Nat.add_sub_cancel]
          rw [e1]
          simp only [Option.getD_some]
          rw [e2]
          have e3 : (([w0] ++ (zs ++ [ylast ++ ['\n']])).get? 0) = some w0 := rfl
          rw [e3]
          rfl
        rw [hstep]
        apply wrapGo_bound m hm (zs ++ [ylast ++ ['\n']])
          (zs ++ [ylast]).length ((w0.length : Int)) [w0]
          (le_of_eq (by simp)) (by simp)
        · intro v hv
          simp only [List.singleton_append, List.mem_cons, List.mem_append,
            List.mem_singleton, List.not_mem_nil, or_false] at hv
          rcases hv with rfl | (hv | rfl)
          · exact hW1s v (by simp)
          · have h := hwsF v (by rw [hws2, hcon]; simp [hv])
            refine ⟨wfWord_of_nlfree h.1, ?_⟩
            rw [wContent_of_unmarked (wMarked_of_nlfree h.1)]
            exact h.2
          · refine ⟨wfWord_concat hyl.1, ?_⟩
            rw [wContent_concat]
            exact hyl.2
        · intro v hv
          rw [List.dropLast_concat] at hv
          exact wMarked_of_nlfree (hwsF v (by rw [hws2, hcon]; simp [hv])).1
        · intro _
          simpa using hw0um
        · exact hW3s
        · exact hW4s
        · rw [curAfter_single, if_neg (by simp [hw0um])]
          simp [addW]
    · have hstep : wrapGo m (w0 :: ws).length 0 0 (w0 :: ws) =
          wrapGo m ws.length ([w0] : List (List Char)).length
            ((0:Int) + 1 + (w0.length : Int)) ([w0] ++ ws) := by
        simp only [wrapGo, List.length_cons, List.get?_cons_zero, if_neg h0]
        rfl
      rw [hstep]
      apply wrapGo_bound m hm ws ws.length ((0:Int) + 1 + (w0.length : Int)) [w0]
        (le_refl _) (by simp) hW1s hW2s hW6s hW3s hW4s
      rw [curAfter_single, if_neg (by simp [hw0um])]
      simp only [Option.getD_some, addW]
      omega

/-- C9: "Line-wrap bound: for every input string without line breaks and
every max_line_chars, every line of the output of break_long_line has length
at most max_line_chars, except lines consisting of a single word that was
originally longer than the budget, which is pre-truncated to exactly the
budget length."  Amended: both halves hold only for a non-negative budget:
every line of the output is then at most `max_line_chars` long (no exception
needed: a word longer than the budget is pre-truncated to exactly the budget
length, as the second conjunct states, so even its line fits).  For a
negative budget the bound fails. -/
theorem c9_linewrap_amended :
    (∀ (segment : List Char) (max_line_chars : Int),
        '\n' ∉ segment → 0 ≤ max_line_chars →
        ∀ l ∈ splitNl (break_long_line segment max_line_chars),
          (l.length : Int) ≤ max_line_chars) ∧
    (∀ (w : List Char) (max_line_chars : Int),
        0 ≤ max_line_chars → ((w.length : Int)) > max_line_chars →
        ((((truncWords [w] max_line_chars).headD []).length : Int)) =
          max_line_chars) := by
  constructor
  · intro seg m hnl hm
    have hwords : ∀ w ∈ truncWords (splitSp seg) m,
        '\n' ∉ w ∧ ((w.length : Int)) ≤ m := by
      intro w hw
      obtain ⟨⟨w0, hw0, hsub⟩, hlen⟩ := truncWords_facts (splitSp seg) m hm w hw
      exact ⟨fun hc => hnl (splitSp_subset seg w0 hw0 '\n' (hsub '\n' hc)), hlen⟩
    obtain ⟨hwf, hbnd⟩ := wrapGo_bound_start m hm (truncWords (splitSp seg) m) hwords
    intro l hl
    apply hbnd
    rw [← lines_of_words _ none hwf (by simp)]
    exact hl
  · intro w m hm hl
    rw [show truncWords [w] m = [pyTake m w] by simp [truncWords, hl]]
    rw [List.headD_cons, pyTake, if_pos hm, List.length_take]
    have hmt : ((m.toNat : Int)) = m := Int.toNat_of_nonneg hm
    have h2 : m.toNat ≤ w.length := by omega
    rw [min_eq_left h2]
    omega

/-- C9, counterexample: with the negative budget −5, the single word
`"abcdefghij"` is truncated (to 5 characters, not to the budget length −5,
which is impossible), and the output line `"abcde"` exceeds the budget, so
both the bound and the exactness half of the exception clause fail. -/
theorem c9_negative_budget_counterexample :
    ('\n' ∉ "abcdefghij".toList) ∧
    splitNl (break_long_line "abcdefghij".toList (-5)) =
      ["abcde".toList, []] ∧
    ¬ ((("abcde".toList.length : Int)) ≤ -5) ∧
    ("abcde".toList.length : Int) ≠ -5 := by
  refine ⟨by decide, by decide, by decide, by decide⟩

theorem c9_linewrap_witness :
    (("ab".toList.length : Int)) ≤ 4 ∧
    ((((truncWords ["abcdefghij".toList] 4).headD []).length : Int)) = 4 := by
  constructor
  · exact c9_linewrap_amended.1 "ab cd".toList 4 (by decide) (by decide)
      "ab".toList (by decide)
  · exact c9_linewrap_amended.2 "abcdefghij".toList 4 (by decide) (by decide)
